import Mathlib

set_option maxHeartbeats 1000000

/-
Verification of the growable sequence container in src/vector.h
(RawMemory + Vector).  The raw block is modelled slot by slot: a slot is
`some x` when it holds a live (constructed) element with value `x` and
`none` when it is raw, unconstructed memory.  Operations that the C++
code performs on raw memory where the language demands a live object
(destroying a never-constructed slot, reading a raw slot) are undefined
behaviour and are modelled by returning `none` at the operation level.
Element moves are modelled as value copies that leave the source slot
live (a moved-from object is still alive), so the move/copy relocation
policy of CopyDataRange collapses to a single value-preserving
relocation in this value model.
-/

namespace VecM

variable {α : Type} {β : Type}

/-- Model of `Vector<T>`: `data` is the raw block owned by the RawMemory
member, slot by slot, so `data.length` is `data_.Capacity()`; `size` is
the live-element count `size_`. -/
structure Vec (α : Type) where
  data : List (Option α)
  size : Nat
deriving DecidableEq

/-- Capacity of the sequence: the length of the owned raw block. -/
def Vec.capacity (v : Vec α) : Nat := v.data.length

/-- Contents of raw slot `i` (out of range reads give `none`, like raw
memory that never held an element). -/
def Vec.slot (v : Vec α) (i : Nat) : Option α := v.data.getD i none

/-- Well-formedness invariant of the container: `size ≤ capacity` and
the slots strictly below `size` are exactly the live (constructed)
ones. -/
def Wf (v : Vec α) : Prop :=
  v.size ≤ v.capacity ∧ ∀ i < v.capacity, ((v.data.getD i none).isSome ↔ i < v.size)

instance (v : Vec α) : Decidable (Wf v) := by
  unfold Wf Vec.capacity
  exact instDecidableAnd

/-- Live contents of the sequence, in index order: the observable
element sequence `[0, size)`. -/
def vals (v : Vec α) : List (Option α) :=
  (List.range v.size).map (fun i => v.data.getD i none)

/-- Begin marker of the iteration range, as an offset into the block. -/
def beginIdx (_ : Vec α) : Nat := 0

/-- End marker, translating `(size_ != 0) ? &data_[size_] : begin()`:
as an offset this is `size` in both branches. -/
def endIdx (v : Vec α) : Nat := if v.size = 0 then 0 else v.size

/-- Model of `std::uninitialized_copy_n` steered by a per-element copy
operation `cp` (`cp x = none` models a throwing copy constructor):
reads `n` source slots starting at `s` — reading a raw slot is
undefined behaviour, modelled as `none` — and constructs the copies
into the destination starting at `d`. -/
def copyNF (cp : α → Option α) (src : List (Option α)) :
    Nat → List (Option α) → Nat → Nat → Option (List (Option α))
  | _, dst, _, 0 => some dst
  | s, dst, d, n+1 =>
    match src.getD s none with
    | none => none
    | some x =>
      match cp x with
      | none => none
      | some y => copyNF cp src (s+1) (dst.set d (some y)) (d+1) n

/-- Model of the relocation performed by `CopyDataRange`
(`uninitialized_move_n` / `uninitialized_copy_n` of live values): in
the value model a move copies the value and leaves the source slot
live, so relocation is `copyNF` with an identity copy. -/
def copyN (src : List (Option α)) (s : Nat) (dst : List (Option α)) (d n : Nat) :
    Option (List (Option α)) :=
  copyNF (fun x => some x) src s dst d n

/-- Model of `std::destroy_n`: ends the lifetime of `n` slots starting
at `s`; destroying a slot that holds no live element is undefined
behaviour, modelled as `none`. -/
def destroyN : List (Option α) → Nat → Nat → Option (List (Option α))
  | l, _, 0 => some l
  | l, s, n+1 =>
    match l.getD s none with
    | none => none
    | some _ => destroyN (l.set s none) (s+1) n

/-- Model of `std::uninitialized_value_construct_n`: default-constructs
the value `dflt` into `n` slots starting at `s`. -/
def constructN (dflt : α) : List (Option α) → Nat → Nat → List (Option α)
  | l, _, 0 => l
  | l, s, n+1 => constructN dflt (l.set s (some dflt)) (s+1) n

/-- Model of `std::move(&data_[pos+1], end(), &data_[pos])` in Erase:
move-assigns `n` slots `[pos+1, pos+1+n)` one slot left, lowest index
first; reading a raw slot is undefined behaviour. -/
def shiftLeft : List (Option α) → Nat → Nat → Option (List (Option α))
  | l, _, 0 => some l
  | l, pos, n+1 =>
    match l.getD (pos+1) none with
    | none => none
    | some a => shiftLeft (l.set pos (some a)) (pos+1) n

/-- Model of `std::move_backward(&data_[pos], end() - 1, end())` in
Emplace: move-assigns `n` slots `[pos, pos+n)` one slot right, highest
index first, so no value is overwritten before it is read. -/
def shiftRight : List (Option α) → Nat → Nat → Option (List (Option α))
  | l, _, 0 => some l
  | l, pos, n+1 =>
    match l.getD (pos+n) none with
    | none => none
    | some a => shiftRight (l.set (pos+n+1) (some a)) pos n

/-- Default-constructed `Vector()`: no block, size zero. -/
def emptyVec (α : Type) : Vec α := ⟨[], 0⟩

/-- Sized constructor `Vector(size_t size)`: allocates exactly `size`
raw slots and value-constructs `size` elements into them. -/
def mkSized (dflt : α) (n : Nat) : Vec α := ⟨List.replicate n (some dflt), n⟩

/-- Copy constructor `Vector(const Vector&)` with a fallible element
copy `cp`: allocates exactly `other.size_` raw slots and copy-constructs
the `other.size_` live elements into them
(`std::uninitialized_copy_n`); a mid-copy failure unwinds the partial
elements and releases the new block, yielding `none`. -/
def copyCtorF (cp : α → Option α) (other : Vec α) : Option (Vec α) :=
  match copyNF cp other.data 0 (List.replicate other.size none) 0 other.size with
  | none => none
  | some d => some ⟨d, other.size⟩

/-- Move constructor `Vector(Vector&&)`: the destination adopts the
block and size wholesale, the donor is left with no block and size
zero.  Returns (destination, donor after the move). -/
def moveCtor (other : Vec α) : Vec α × Vec α :=
  (⟨other.data, other.size⟩, ⟨[], 0⟩)

/-- Member `Swap`: O(1) exchange of block and size.  Returns the pair
(this after, other after). -/
def swapV (a b : Vec α) : Vec α × Vec α := (b, a)

/-- Move assignment `operator=(Vector&&)`: swap with `rhs` unless the
operands are the same object (`same` models `this == &rhs`).  Returns
(this after, rhs after). -/
def moveAssign (same : Bool) (v rhs : Vec α) : Vec α × Vec α :=
  if same then (v, rhs) else (rhs, v)

/-- Loop `for (; i < size_ && i < rhs.Size(); i++) data_[i] = rhs[i];`
of the copy assignment, with a fallible element copy `cp`: value-assigns
`n` elements starting at index `i`.  On a failure the destination keeps
everything assigned so far (weak guarantee); the Bool reports success. -/
def assignOverlap (cp : α → Option α) (rhsData : List (Option α)) :
    List (Option α) → Nat → Nat → List (Option α) × Bool
  | d, _, 0 => (d, true)
  | d, i, n+1 =>
    match rhsData.getD i none with
    | none => (d, false)
    | some x =>
      match cp x with
      | none => (d, false)
      | some y => assignOverlap cp rhsData (d.set i (some y)) (i+1) n

/-- Copy assignment `operator=(const Vector&)`.  `same` models the
pointer identity test `this == &rhs`; `cp` is the fallible element
copy.  Returns the final state of `*this` together with a success flag
(false models a propagated exception; the returned state is the state
the destination was left in). -/
def copyAssign (cp : α → Option α) (same : Bool) (v rhs : Vec α) : Vec α × Bool :=
  if same then (v, true)
  else if v.capacity < rhs.size then
    match copyCtorF cp rhs with
    | none => (v, false)
    | some c => (c, true)
  else
    match assignOverlap cp rhs.data v.data 0 (min v.size rhs.size) with
    | (d, false) => (⟨d, v.size⟩, false)
    | (d, true) =>
      if v.size < rhs.size then
        match copyNF cp rhs.data (min v.size rhs.size) d (min v.size rhs.size)
            (rhs.size - min v.size rhs.size) with
        | none => (⟨d, v.size⟩, false)
        | some d2 => (⟨d2, rhs.size⟩, true)
      else
        match destroyN d rhs.size (v.size - rhs.size) with
        | none => (⟨d, v.size⟩, false)
        | some d2 => (⟨d2, rhs.size⟩, true)

/-- `Reserve(new_capacity)`: no-op when the request does not exceed the
capacity; otherwise allocate a block of exactly `newCap` raw slots,
relocate the `size_` live elements into it, swap the blocks, and then —
as the code does — call `std::destroy_n(new_data.GetAddress(),
new_data.Capacity())`, i.e. destroy OLD-CAPACITY many slots of the old
block, not `size_` many. -/
def reserve (v : Vec α) (newCap : Nat) : Option (Vec α) :=
  if newCap ≤ v.capacity then some v
  else
    match copyN v.data 0 (List.replicate newCap none) 0 v.size with
    | none => none
    | some nd =>
      match destroyN v.data 0 v.capacity with
      | none => none
      | some _ => some ⟨nd, v.size⟩

/-- `Resize(new_size)`: when `new_size >= Capacity()` reserve and then
value-construct the `new_size - size_` new slots; otherwise destroy the
live elements in `[new_size, size_)`; finally set `size_ = new_size`. -/
def resize (v : Vec α) (dflt : α) (newSize : Nat) : Option (Vec α) :=
  if v.capacity ≤ newSize then
    match reserve v newSize with
    | none => none
    | some v1 => some ⟨constructN dflt v1.data v.size (newSize - v.size), newSize⟩
  else
    match destroyN v.data newSize (v.size - newSize) with
    | none => none
    | some nd => some ⟨nd, newSize⟩

/-- `PopBack()`: destroy the last live element and decrement `size_`;
a no-op when the sequence is empty. -/
def popBack (v : Vec α) : Option (Vec α) :=
  if v.size = 0 then some v
  else
    match v.data.getD (v.size - 1) none with
    | none => none
    | some _ => some ⟨v.data.set (v.size - 1) none, v.size - 1⟩

/-- `EmplaceBack` / `PushBack`: when `size_ == Capacity()` allocate a
block of `max(1, 2 * Capacity())` slots, construct the new element into
slot `size_` of the new block first, relocate the `size_` old elements,
swap, and destroy old-capacity (= `size_` here) slots of the old block;
otherwise construct directly into slot `size_`.  Returns the new state
and the offset of the returned reference `data_[size_ - 1]`. -/
def emplaceBack (v : Vec α) (x : α) : Option (Vec α × Nat) :=
  if v.size = v.capacity then
    match copyN v.data 0
        ((List.replicate (if v.capacity = 0 then 1 else 2 * v.capacity)
          (none : Option α)).set v.size (some x)) 0 v.size with
    | none => none
    | some nd =>
      match destroyN v.data 0 v.capacity with
      | none => none
      | some _ => some (⟨nd, v.size + 1⟩, v.size)
  else
    some (⟨v.data.set v.size (some x), v.size + 1⟩, v.size)

/-- `Emplace(pos, args)` / `Insert(pos, value)` at offset
`value_pos = pos - begin()`.  Growth path: construct the new element at
its final slot of the doubled block, relocate the prefix `[0, pos)` and
the suffix `[pos, size_)` around it, swap, destroy the old block
(old capacity = `size_` here).  Append path: construct at `end()`.
Interior path: move-construct the last element into slot `size_`, shift
`[pos, size_ - 1)` one slot right by move assignment, highest first,
then assign the new value into slot `pos`.  Returns the new state and
the returned iterator offset `value_pos`. -/
def emplace (v : Vec α) (pos : Nat) (x : α) : Option (Vec α × Nat) :=
  if v.size = v.capacity then
    match copyN v.data 0
        ((List.replicate (if v.capacity = 0 then 1 else 2 * v.capacity)
          (none : Option α)).set pos (some x)) 0 pos with
    | none => none
    | some nd1 =>
      match copyN v.data pos nd1 (pos + 1) (v.size - pos) with
      | none => none
      | some nd2 =>
        match destroyN v.data 0 v.capacity with
        | none => none
        | some _ => some (⟨nd2, v.size + 1⟩, pos)
  else if pos = v.size then
    some (⟨v.data.set v.size (some x), v.size + 1⟩, pos)
  else
    match v.data.getD (v.size - 1) none with
    | none => none
    | some lastv =>
      match shiftRight (v.data.set v.size (some lastv)) pos (v.size - 1 - pos) with
      | none => none
      | some l2 => some (⟨l2.set pos (some x), v.size + 1⟩, pos)

/-- `Erase(pos)`: requires a non-empty sequence (`assert(!Empty())`);
shifts `[pos+1, size_)` one slot left by move assignment, then PopBack
destroys the vacated last slot.  Returns the new state and the returned
iterator offset `value_pos`. -/
def erase (v : Vec α) (pos : Nat) : Option (Vec α × Nat) :=
  if v.size = 0 then none
  else
    match shiftLeft v.data pos (v.size - 1 - pos) with
    | none => none
    | some l =>
      match l.getD (v.size - 1) none with
      | none => none
      | some _ => some (⟨l.set (v.size - 1) none, v.size - 1⟩, pos)

/-- Appends a whole list by successive `EmplaceBack` calls. -/
def pushList (v : Vec α) : List α → Option (Vec α)
  | [] => some v
  | x :: xs =>
    match emplaceBack v x with
    | none => none
    | some (v', _) => pushList v' xs

/-- Capacity after `k` successive PushBack calls from empty, following
the growth rule of EmplaceBack: grow to `max(1, 2 * capacity)` exactly
when `size = capacity`. -/
def capSeq : Nat → Nat
  | 0 => 0
  | k+1 => if capSeq k = k then (if capSeq k = 0 then 1 else 2 * capSeq k) else capSeq k

/-- Concrete state [10, 20] with capacity 4, reachable by PushBack of
10, 20, 30 followed by one PopBack. -/
def vTwoCapFour : Vec Int := ⟨[some 10, some 20, none, none], 2⟩

/-- Concrete state [1, 2, 3] with capacity 8, reachable by PushBack of
1..6 followed by three PopBack calls. -/
def vThreeCapEight : Vec Int :=
  ⟨[some 1, some 2, some 3, none, none, none, none, none], 3⟩

/-- State produced by Resize(5) on [1, 2, 3] with capacity 8: the size
jumps to 5 but slots 3 and 4 are never constructed. -/
def vThreeCapEightResized : Vec Int :=
  ⟨[some 1, some 2, some 3, none, none, none, none, none], 5⟩

/-! Basic facts about `List.getD`, `List.set` and `List.replicate`. -/

theorem getD_set_self (l : List β) (i : Nat) (x d : β) (h : i < l.length) :
    (l.set i x).getD i d = x := by
  rw [List.getD_eq_getElem _ _ (by simpa using h)]
  exact List.getElem_set_self _

theorem getD_set_ne (l : List β) {i j : Nat} (x d : β) (h : i ≠ j) :
    (l.set i x).getD j d = l.getD j d := by
  by_cases hj : j < l.length
  · rw [List.getD_eq_getElem _ _ (by simpa using hj), List.getD_eq_getElem _ _ hj]
    exact List.getElem_set_ne h _
  · rw [List.getD_eq_default _ _ (by simpa using Nat.le_of_not_lt hj),
      List.getD_eq_default _ _ (Nat.le_of_not_lt hj)]

theorem getD_replicate (c d : β) {n i : Nat} (h : i < n) :
    (List.replicate n c).getD i d = c := by
  rw [List.getD_eq_getElem _ _ (by simpa using h)]
  exact List.getElem_replicate _ _

theorem getD_replicate_ge (c d : β) {n i : Nat} (h : n ≤ i) :
    (List.replicate n c).getD i d = d :=
  List.getD_eq_default _ _ (by simpa using h)

theorem lt_length_of_getD_isSome {l : List (Option α)} {i : Nat}
    (h : (l.getD i none).isSome) : i < l.length := by
  by_contra hc
  rw [List.getD_eq_default _ _ (Nat.le_of_not_lt hc)] at h
  simp at h

/-! Characterizations of the buffer primitives. -/

theorem copyNF_some_spec (cp : α → Option α) (src : List (Option α)) :
    ∀ (n s : Nat) (dst : List (Option α)) (d : Nat) (out : List (Option α)),
      copyNF cp src s dst d n = some out → d + n ≤ dst.length →
      out.length = dst.length ∧
      (∀ j, j < d ∨ d + n ≤ j → out.getD j none = dst.getD j none) ∧
      (∀ k, k < n → ∃ x y, src.getD (s + k) none = some x ∧ cp x = some y ∧
        out.getD (d + k) none = some y) := by
  intro n
  induction n with
  | zero =>
    intro s dst d out h _
    simp only [copyNF] at h
    cases h
    exact ⟨rfl, fun j _ => rfl, fun k hk => absurd hk (Nat.not_lt_zero k)⟩
  | succ n ih =>
    intro s dst d out h hlen
    cases hs : src.getD s none with
    | none => simp only [copyNF, hs] at h; exact Option.noConfusion h
    | some x =>
      cases hc : cp x with
      | none => simp only [copyNF, hs, hc] at h; exact Option.noConfusion h
      | some y =>
        simp only [copyNF, hs, hc] at h
        have hdl : d < dst.length := by omega
        have hlen' : (d + 1) + n ≤ (dst.set d (some y)).length := by
          rw [List.length_set]; omega
        obtain ⟨h1, h2, h3⟩ := ih (s+1) (dst.set d (some y)) (d+1) out h hlen'
        refine ⟨by rw [h1, List.length_set], ?_, ?_⟩
        · intro j hj
          have hne : d ≠ j := by omega
          have : out.getD j none = (dst.set d (some y)).getD j none :=
            h2 j (by omega)
          rw [this, getD_set_ne _ _ _ hne]
        · intro k hk
          cases k with
          | zero =>
            refine ⟨x, y, by simpa using hs, hc, ?_⟩
            have : out.getD d none = (dst.set d (some y)).getD d none :=
              h2 d (by omega)
            rw [Nat.add_zero, this, getD_set_self _ _ _ _ hdl]
          | succ k =>
            obtain ⟨x', y', hx', hc', ho'⟩ := h3 k (by omega)
            refine ⟨x', y', ?_, hc', ?_⟩
            · rw [show s + (k+1) = (s+1) + k by omega]; exact hx'
            · rw [show d + (k+1) = (d+1) + k by omega]; exact ho'

theorem copyNF_id_spec (src : List (Option α)) {n s : Nat} {dst : List (Option α)}
    {d : Nat} {out : List (Option α)}
    (h : copyN src s dst d n = some out) (hlen : d + n ≤ dst.length) :
    out.length = dst.length ∧
    (∀ j, j < d ∨ d + n ≤ j → out.getD j none = dst.getD j none) ∧
    (∀ k, k < n → out.getD (d + k) none = src.getD (s + k) none) := by
  obtain ⟨h1, h2, h3⟩ := copyNF_some_spec (fun x => some x) src n s dst d out h hlen
  refine ⟨h1, h2, fun k hk => ?_⟩
  obtain ⟨x, y, hx, hc, ho⟩ := h3 k hk
  cases hc
  rw [ho, hx]

theorem copyN_total (src : List (Option α)) :
    ∀ (n s : Nat) (dst : List (Option α)) (d : Nat),
      (∀ k, k < n → (src.getD (s + k) none).isSome) →
      ∃ out, copyN src s dst d n = some out := by
  intro n
  induction n with
  | zero => intro s dst d _; exact ⟨dst, rfl⟩
  | succ n ih =>
    intro s dst d hlive
    have h0 : (src.getD s none).isSome := by simpa using hlive 0 (Nat.succ_pos n)
    cases hs : src.getD s none with
    | none => rw [hs] at h0; simp at h0
    | some x =>
      obtain ⟨out, hout⟩ := ih (s+1) (dst.set d (some x)) (d+1)
        (fun k hk => by
          have := hlive (k+1) (by omega)
          rwa [show s + (k+1) = (s+1) + k by omega] at this)
      exact ⟨out, by simp only [copyN, copyNF, hs]; exact hout⟩

theorem destroyN_spec :
    ∀ (n : Nat) (l : List (Option α)) (s : Nat),
      (∀ k, k < n → (l.getD (s + k) none).isSome) →
      ∃ out, destroyN l s n = some out ∧ out.length = l.length ∧
        (∀ j, j < s ∨ s + n ≤ j → out.getD j none = l.getD j none) ∧
        (∀ k, k < n → out.getD (s + k) none = none) := by
  intro n
  induction n with
  | zero =>
    intro l s _
    exact ⟨l, rfl, rfl, fun j _ => rfl, fun k hk => absurd hk (Nat.not_lt_zero k)⟩
  | succ n ih =>
    intro l s hlive
    have h0 : (l.getD s none).isSome := by simpa using hlive 0 (Nat.succ_pos n)
    have hsl : s < l.length := lt_length_of_getD_isSome h0
    cases hs : l.getD s none with
    | none => rw [hs] at h0; simp at h0
    | some a =>
      obtain ⟨out, hout, h1, h2, h3⟩ := ih (l.set s none) (s+1)
        (fun k hk => by
          rw [show (s+1) + k = s + (k+1) by omega, getD_set_ne _ _ _ (by omega)]
          exact hlive (k+1) (by omega))
      refine ⟨out, ?_, by rw [h1, List.length_set], ?_, ?_⟩
      · simp only [destroyN, hs]; exact hout
      · intro j hj
        rw [h2 j (by omega), getD_set_ne _ _ _ (by omega)]
      · intro k hk
        cases k with
        | zero =>
          rw [Nat.add_zero, h2 s (Or.inl (by omega)), getD_set_self _ _ _ _ hsl]
        | succ k =>
          rw [show s + (k+1) = (s+1) + k by omega]
          exact h3 k (by omega)

theorem constructN_spec (dflt : α) :
    ∀ (n : Nat) (l : List (Option α)) (s : Nat),
      (constructN dflt l s n).length = l.length ∧
      (∀ j, j < s ∨ s + n ≤ j → (constructN dflt l s n).getD j none = l.getD j none) ∧
      (∀ k, k < n → s + k < l.length →
        (constructN dflt l s n).getD (s + k) none = some dflt) := by
  intro n
  induction n with
  | zero =>
    intro l s
    exact ⟨rfl, fun j _ => rfl, fun k hk => absurd hk (Nat.not_lt_zero k)⟩
  | succ n ih =>
    intro l s
    obtain ⟨h1, h2, h3⟩ := ih (l.set s (some dflt)) (s+1)
    simp only [constructN]
    refine ⟨by rw [h1, List.length_set], ?_, ?_⟩
    · intro j hj
      rw [h2 j (by omega), getD_set_ne _ _ _ (by omega)]
    · intro k hk hkl
      cases k with
      | zero =>
        have h := h2 s (Or.inl (by omega))
        rw [getD_set_self _ _ _ _ (by simpa using hkl)] at h
        simpa using h
      | succ k =>
        have h := h3 k (by omega) (by rw [List.length_set]; omega)
        rw [show s + (k+1) = (s+1) + k by omega]
        exact h

theorem shiftLeft_spec :
    ∀ (n : Nat) (l : List (Option α)) (pos : Nat),
      (∀ k, k < n → (l.getD (pos + 1 + k) none).isSome) →
      ∃ out, shiftLeft l pos n = some out ∧ out.length = l.length ∧
        (∀ j, j < pos ∨ pos + n ≤ j → out.getD j none = l.getD j none) ∧
        (∀ k, k < n → out.getD (pos + k) none = l.getD (pos + 1 + k) none) := by
  intro n
  induction n with
  | zero =>
    intro l pos _
    exact ⟨l, rfl, rfl, fun j _ => rfl, fun k hk => absurd hk (Nat.not_lt_zero k)⟩
  | succ n ih =>
    intro l pos hlive
    have h0 : (l.getD (pos + 1) none).isSome := by simpa using hlive 0 (Nat.succ_pos n)
    have hpl : pos < l.length := by
      have := lt_length_of_getD_isSome h0; omega
    cases hs : l.getD (pos + 1) none with
    | none => rw [hs] at h0; simp at h0
    | some a =>
      obtain ⟨out, hout, h1, h2, h3⟩ := ih (l.set pos (some a)) (pos+1)
        (fun k hk => by
          rw [getD_set_ne _ _ _ (by omega),
            show pos + 1 + 1 + k = pos + 1 + (k + 1) by omega]
          exact hlive (k+1) (by omega))
      refine ⟨out, ?_, by rw [h1, List.length_set], ?_, ?_⟩
      · simp only [shiftLeft, hs]; exact hout
      · intro j hj
        rw [h2 j (by omega), getD_set_ne _ _ _ (by omega)]
      · intro k hk
        cases k with
        | zero =>
          rw [Nat.add_zero, h2 pos (Or.inl (by omega)),
            getD_set_self _ _ _ _ hpl, Nat.add_zero, hs]
        | succ k =>
          have h := h3 k (by omega)
          rw [getD_set_ne _ _ _ (by omega)] at h
          rw [show pos + (k+1) = (pos+1) + k by omega,
            show pos + 1 + (k+1) = (pos+1) + 1 + k by omega]
          exact h

theorem shiftRight_spec :
    ∀ (n : Nat) (l : List (Option α)) (pos : Nat),
      (∀ k, k < n → (l.getD (pos + k) none).isSome) →
      pos + n < l.length →
      ∃ out, shiftRight l pos n = some out ∧ out.length = l.length ∧
        (∀ j, j ≤ pos ∨ pos + n < j → out.getD j none = l.getD j none) ∧
        (∀ k, k < n → out.getD (pos + k + 1) none = l.getD (pos + k) none) := by
  intro n
  induction n with
  | zero =>
    intro l pos _ _
    exact ⟨l, rfl, rfl, fun j _ => rfl, fun k hk => absurd hk (Nat.not_lt_zero k)⟩
  | succ n ih =>
    intro l pos hlive hlen
    have h0 : (l.getD (pos + n) none).isSome := hlive n (by omega)
    cases hs : l.getD (pos + n) none with
    | none => rw [hs] at h0; simp at h0
    | some a =>
      obtain ⟨out, hout, h1, h2, h3⟩ := ih (l.set (pos+n+1) (some a)) pos
        (fun k hk => by
          rw [getD_set_ne _ _ _ (by omega)]
          exact hlive k (by omega))
        (by rw [List.length_set]; omega)
      refine ⟨out, ?_, by rw [h1, List.length_set], ?_, ?_⟩
      · simp only [shiftRight, hs]; exact hout
      · intro j hj
        rw [h2 j (by omega), getD_set_ne _ _ _ (by omega)]
      · intro k hk
        rcases Nat.lt_succ_iff_lt_or_eq.mp hk with hk' | hk'
        · rw [h3 k hk', getD_set_ne _ _ _ (by omega)]
        · subst hk'
          rw [h2 (pos+k+1) (Or.inr (by omega)),
            getD_set_self _ _ _ _ (by omega), hs]

theorem assignOverlap_frame (cp : α → Option α) (rhsData : List (Option α)) :
    ∀ (n : Nat) (d : List (Option α)) (i : Nat),
      (assignOverlap cp rhsData d i n).1.length = d.length ∧
      (∀ j, j < i ∨ i + n ≤ j →
        (assignOverlap cp rhsData d i n).1.getD j none = d.getD j none) ∧
      (∀ k, k < n →
        (assignOverlap cp rhsData d i n).1.getD (i + k) none = d.getD (i + k) none ∨
        ((assignOverlap cp rhsData d i n).1.getD (i + k) none).isSome) := by
  intro n
  induction n with
  | zero =>
    intro d i
    exact ⟨rfl, fun j _ => rfl, fun k hk => absurd hk (Nat.not_lt_zero k)⟩
  | succ n ih =>
    intro d i
    cases hs : rhsData.getD i none with
    | none => simp only [assignOverlap, hs]; simp
    | some x =>
      cases hc : cp x with
      | none => simp only [assignOverlap, hs, hc]; simp
      | some y =>
        simp only [assignOverlap, hs, hc]
        obtain ⟨h1, h2, h3⟩ := ih (d.set i (some y)) (i+1)
        refine ⟨by rw [h1, List.length_set], ?_, ?_⟩
        · intro j hj
          rw [h2 j (by omega), getD_set_ne _ _ _ (by omega)]
        · intro k hk
          by_cases hil : i < d.length
          · cases k with
            | zero =>
              right
              have h := h2 i (Or.inl (by omega))
              rw [getD_set_self _ _ _ _ hil] at h
              simp only [Nat.add_zero, h]
              rfl
            | succ k =>
              rcases h3 k (by omega) with h | h
              · left
                have h' : (d.set i (some y)).getD (i+1+k) none = d.getD (i+1+k) none :=
                  getD_set_ne _ _ _ (by omega)
                rw [show i + (k+1) = (i+1) + k by omega]
                exact h.trans h'
              · right
                rwa [show i + (k+1) = (i+1) + k by omega]
          · have hset : d.set i (some y) = d :=
              List.set_eq_of_length_le (Nat.le_of_not_lt hil)
            rw [hset] at h2 h3 ⊢
            cases k with
            | zero =>
              left
              have h := h2 i (Or.inl (by omega))
              simpa using h
            | succ k =>
              rcases h3 k (by omega) with h | h
              · left
                rw [show i + (k+1) = (i+1) + k by omega]
                exact h
              · right
                rwa [show i + (k+1) = (i+1) + k by omega]

theorem assignOverlap_true_spec (cp : α → Option α)
    (hcp : ∀ x, cp x = none ∨ cp x = some x) (rhsData : List (Option α)) :
    ∀ (n : Nat) (d : List (Option α)) (i : Nat) (out : List (Option α)),
      assignOverlap cp rhsData d i n = (out, true) → i + n ≤ d.length →
      out.length = d.length ∧
      (∀ j, j < i ∨ i + n ≤ j → out.getD j none = d.getD j none) ∧
      (∀ k, k < n → out.getD (i + k) none = rhsData.getD (i + k) none) := by
  intro n
  induction n with
  | zero =>
    intro d i out h _
    simp only [assignOverlap] at h
    cases h
    exact ⟨rfl, fun j _ => rfl, fun k hk => absurd hk (Nat.not_lt_zero k)⟩
  | succ n ih =>
    intro d i out h hlen
    cases hs : rhsData.getD i none with
    | none => simp only [assignOverlap, hs] at h; simp at h
    | some x =>
      cases hc : cp x with
      | none => simp only [assignOverlap, hs, hc] at h; simp at h
      | some y =>
        have hyx : y = x := by
          rcases hcp x with h' | h' <;> rw [h'] at hc
          · cases hc
          · exact (Option.some.injEq _ _ ▸ hc).symm
        subst hyx
        simp only [assignOverlap, hs, hc] at h
        have hil : i < d.length := by omega
        obtain ⟨h1, h2, h3⟩ := ih (d.set i (some y)) (i+1) out h
          (by rw [List.length_set]; omega)
        refine ⟨by rw [h1, List.length_set], ?_, ?_⟩
        · intro j hj
          rw [h2 j (by omega), getD_set_ne _ _ _ (by omega)]
        · intro k hk
          cases k with
          | zero =>
            have h := h2 i (Or.inl (by omega))
            rw [getD_set_self _ _ _ _ hil] at h
            simp only [Nat.add_zero, hs, h]
          | succ k =>
            have h := h3 k (by omega)
            rw [show i + (k+1) = (i+1) + k by omega]
            exact h

theorem getD_replicate_none (n i : Nat) :
    (List.replicate n (none : Option α)).getD i none = none := by
  by_cases h : i < n
  · exact getD_replicate _ _ h
  · exact getD_replicate_ge _ _ (Nat.le_of_not_lt h)

theorem copyNF_length (cp : α → Option α) (src : List (Option α)) :
    ∀ (n s : Nat) (dst : List (Option α)) (d : Nat) (out : List (Option α)),
      copyNF cp src s dst d n = some out → out.length = dst.length := by
  intro n
  induction n with
  | zero => intro s dst d out h; simp only [copyNF] at h; cases h; rfl
  | succ n ih =>
    intro s dst d out h
    cases hs : src.getD s none with
    | none => simp only [copyNF, hs] at h; exact Option.noConfusion h
    | some x =>
      cases hc : cp x with
      | none => simp only [copyNF, hs, hc] at h; exact Option.noConfusion h
      | some y =>
        simp only [copyNF, hs, hc] at h
        rw [ih (s+1) (dst.set d (some y)) (d+1) out h, List.length_set]

theorem destroyN_length :
    ∀ (n : Nat) (l : List (Option α)) (s : Nat) (out : List (Option α)),
      destroyN l s n = some out → out.length = l.length := by
  intro n
  induction n with
  | zero => intro l s out h; simp only [destroyN] at h; cases h; rfl
  | succ n ih =>
    intro l s out h
    cases hs : l.getD s none with
    | none => simp only [destroyN, hs] at h; exact Option.noConfusion h
    | some a =>
      simp only [destroyN, hs] at h
      rw [ih (l.set s none) (s+1) out h, List.length_set]

theorem destroyN_some_live :
    ∀ (n : Nat) (l : List (Option α)) (s : Nat) (out : List (Option α)),
      destroyN l s n = some out → ∀ k, k < n → (l.getD (s + k) none).isSome := by
  intro n
  induction n with
  | zero => intro l s out _ k hk; exact absurd hk (Nat.not_lt_zero k)
  | succ n ih =>
    intro l s out h k hk
    cases hs : l.getD s none with
    | none => simp only [destroyN, hs] at h; exact Option.noConfusion h
    | some a =>
      simp only [destroyN, hs] at h
      cases k with
      | zero => rw [Nat.add_zero, hs]; rfl
      | succ k =>
        have := ih (l.set s none) (s+1) out h k (by omega)
        rw [getD_set_ne _ _ _ (by omega)] at this
        rwa [show s + (k+1) = (s+1) + k by omega]

theorem shiftLeft_length :
    ∀ (n : Nat) (l : List (Option α)) (pos : Nat) (out : List (Option α)),
      shiftLeft l pos n = some out → out.length = l.length := by
  intro n
  induction n with
  | zero => intro l pos out h; simp only [shiftLeft] at h; cases h; rfl
  | succ n ih =>
    intro l pos out h
    cases hs : l.getD (pos+1) none with
    | none => simp only [shiftLeft, hs] at h; exact Option.noConfusion h
    | some a =>
      simp only [shiftLeft, hs] at h
      rw [ih (l.set pos (some a)) (pos+1) out h, List.length_set]

/-! Consequences of well-formedness. -/

theorem Wf.isSome_iff {v : Vec α} (h : Wf v) (i : Nat) :
    (v.data.getD i none).isSome ↔ i < v.size := by
  by_cases hc : i < v.capacity
  · exact h.2 i hc
  · constructor
    · intro hs; exact absurd (lt_length_of_getD_isSome hs) hc
    · intro hi; exact absurd (Nat.lt_of_lt_of_le hi h.1) hc

theorem Wf.getD_none {v : Vec α} (h : Wf v) {i : Nat} (hi : v.size ≤ i) :
    v.data.getD i none = none := by
  cases hd : v.data.getD i none with
  | none => rfl
  | some a =>
    have : (v.data.getD i none).isSome := by rw [hd]; rfl
    have := (h.isSome_iff i).mp this
    omega

theorem wf_of_slots {v : Vec α} (h1 : v.size ≤ v.capacity)
    (h2 : ∀ i, i < v.size → (v.data.getD i none).isSome)
    (h3 : ∀ i, v.size ≤ i → i < v.capacity → v.data.getD i none = none) :
    Wf v := by
  refine ⟨h1, fun i hi => ⟨fun hs => ?_, fun hlt => h2 i hlt⟩⟩
  by_contra hge
  rw [h3 i (Nat.le_of_not_lt hge) hi] at hs
  simp at hs

theorem vals_eq_of_slots {v w : Vec α} (hsz : v.size = w.size)
    (h : ∀ i, i < v.size → v.slot i = w.slot i) : vals v = vals w := by
  unfold vals
  rw [← hsz]
  refine List.map_congr_left ?_
  intro i hi
  rw [List.mem_range] at hi
  exact h i hi

/-! Specifications of the public operations on well-formed states. -/

theorem capacity_eq (v : Vec α) : v.capacity = v.data.length := rfl

theorem emplaceBack_spec {v : Vec α} (hv : Wf v) (x : α) :
    ∃ v', emplaceBack v x = some (v', v.size) ∧
      v'.size = v.size + 1 ∧
      v'.capacity = (if v.size = v.capacity then
        (if v.capacity = 0 then 1 else 2 * v.capacity) else v.capacity) ∧
      v'.slot v.size = some x ∧
      (∀ i, i < v.size → v'.slot i = v.slot i) ∧ Wf v' := by
  by_cases hg : v.size = v.capacity
  · have hsz : v.size < (if v.capacity = 0 then 1 else 2 * v.capacity) := by
      by_cases h0 : v.capacity = 0
      · rw [if_pos h0]; omega
      · rw [if_neg h0]; omega
    have hd0len : ((List.replicate (if v.capacity = 0 then 1 else 2 * v.capacity)
        (none : Option α)).set v.size (some x)).length =
        (if v.capacity = 0 then 1 else 2 * v.capacity) := by
      rw [List.length_set, List.length_replicate]
    have hlive : ∀ k, k < v.size → ((v.data).getD (0 + k) none).isSome := by
      intro k hk
      rw [Nat.zero_add]
      exact (hv.isSome_iff k).mpr hk
    obtain ⟨out, hout⟩ := copyN_total v.data v.size 0
      ((List.replicate (if v.capacity = 0 then 1 else 2 * v.capacity)
        (none : Option α)).set v.size (some x)) 0 hlive
    obtain ⟨holen, hofr, hocp⟩ := copyNF_id_spec v.data hout
      (by rw [hd0len]; omega)
    have hdlive : ∀ k, k < v.capacity → ((v.data).getD (0 + k) none).isSome := by
      intro k hk
      rw [Nat.zero_add]
      exact (hv.isSome_iff k).mpr (by omega)
    obtain ⟨dd, hdd, _, _, _⟩ := destroyN_spec v.capacity v.data 0 hdlive
    refine ⟨⟨out, v.size + 1⟩, ?_, rfl, ?_, ?_, ?_, ?_⟩
    · unfold emplaceBack
      rw [if_pos hg]
      simp only [hout, hdd]
    · show out.length = _
      rw [if_pos hg, holen, hd0len]
    · show out.getD v.size none = some x
      rw [hofr v.size (Or.inr (by omega)),
        getD_set_self _ _ _ _ (by rw [List.length_replicate]; exact hsz)]
    · intro i hi
      show out.getD i none = v.data.getD i none
      have h := hocp i hi
      rw [Nat.zero_add] at h
      exact h
    · refine wf_of_slots ?_ ?_ ?_
      · show v.size + 1 ≤ out.length
        rw [holen, hd0len]
        omega
      · intro i hi
        have hi' : i < v.size + 1 := hi
        show (out.getD i none).isSome
        rcases Nat.lt_succ_iff_lt_or_eq.mp hi' with h1 | h1
        · have h := hocp i h1
          rw [Nat.zero_add] at h
          rw [h]
          exact (hv.isSome_iff i).mpr h1
        · rw [h1, hofr v.size (Or.inr (by omega)),
            getD_set_self _ _ _ _ (by rw [List.length_replicate]; exact hsz)]
          rfl
      · intro i hi _
        have hi' : v.size + 1 ≤ i := hi
        show out.getD i none = none
        rw [hofr i (Or.inr (by omega)), getD_set_ne _ _ _ (by omega),
          getD_replicate_none]
  · have hlt : v.size < v.capacity := Nat.lt_of_le_of_ne hv.1 hg
    have hltl : v.size < v.data.length := by rw [← capacity_eq]; exact hlt
    refine ⟨⟨v.data.set v.size (some x), v.size + 1⟩, ?_, rfl, ?_, ?_, ?_, ?_⟩
    · unfold emplaceBack
      rw [if_neg hg]
    · show (v.data.set v.size (some x)).length = _
      rw [if_neg hg, List.length_set]
      rfl
    · show (v.data.set v.size (some x)).getD v.size none = some x
      exact getD_set_self _ _ _ _ hltl
    · intro i hi
      show (v.data.set v.size (some x)).getD i none = v.data.getD i none
      exact getD_set_ne _ _ _ (by omega)
    · refine wf_of_slots ?_ ?_ ?_
      · show v.size + 1 ≤ (v.data.set v.size (some x)).length
        rw [List.length_set]
        exact hltl
      · intro i hi
        have hi' : i < v.size + 1 := hi
        show ((v.data.set v.size (some x)).getD i none).isSome
        rcases Nat.lt_succ_iff_lt_or_eq.mp hi' with h1 | h1
        · rw [getD_set_ne _ _ _ (by omega)]
          exact (hv.isSome_iff i).mpr h1
        · subst h1
          rw [getD_set_self _ _ _ _ hltl]
          rfl
      · intro i hi _
        have hi' : v.size + 1 ≤ i := hi
        show (v.data.set v.size (some x)).getD i none = none
        rw [getD_set_ne _ _ _ (by omega)]
        exact hv.getD_none (by omega)

theorem popBack_spec {v : Vec α} (hv : Wf v) :
    (v.size = 0 → popBack v = some v) ∧
    (0 < v.size → ∃ v', popBack v = some v' ∧ v'.size = v.size - 1 ∧
      v'.capacity = v.capacity ∧ v'.slot (v.size - 1) = none ∧
      (∀ i, i < v.size - 1 → v'.slot i = v.slot i) ∧ Wf v') := by
  constructor
  · intro h0
    unfold popBack
    rw [if_pos h0]
  · intro hpos
    have hlast : (v.data.getD (v.size - 1) none).isSome :=
      (hv.isSome_iff _).mpr (by omega)
    have hlastl : v.size - 1 < v.data.length := lt_length_of_getD_isSome hlast
    cases hl : v.data.getD (v.size - 1) none with
    | none => rw [hl] at hlast; simp at hlast
    | some a =>
      refine ⟨⟨v.data.set (v.size - 1) none, v.size - 1⟩, ?_, rfl, ?_, ?_, ?_, ?_⟩
      · unfold popBack
        rw [if_neg (by omega)]
        simp only [hl]
      · show (v.data.set (v.size - 1) none).length = _
        rw [List.length_set]
        rfl
      · show (v.data.set (v.size - 1) none).getD (v.size - 1) none = none
        exact getD_set_self _ _ _ _ hlastl
      · intro i hi
        show (v.data.set (v.size - 1) none).getD i none = v.data.getD i none
        exact getD_set_ne _ _ _ (by omega)
      · refine wf_of_slots ?_ ?_ ?_
        · show v.size - 1 ≤ (v.data.set (v.size - 1) none).length
          rw [List.length_set]
          omega
        · intro i hi
          have hi' : i < v.size - 1 := hi
          show ((v.data.set (v.size - 1) none).getD i none).isSome
          rw [getD_set_ne _ _ _ (by omega)]
          exact (hv.isSome_iff i).mpr (by omega)
        · intro i hi _
          have hi' : v.size - 1 ≤ i := hi
          show (v.data.set (v.size - 1) none).getD i none = none
          by_cases he : i = v.size - 1
          · subst he
            exact getD_set_self _ _ _ _ hlastl
          · rw [getD_set_ne _ _ _ (by omega)]
            exact hv.getD_none (by omega)

theorem reserve_noop {v : Vec α} {n : Nat} (h : n ≤ v.capacity) :
    reserve v n = some v := by
  unfold reserve
  rw [if_pos h]

theorem reserve_grow_spec {v : Vec α} (hv : Wf v) {n : Nat} (hn : v.capacity < n)
    (hsc : v.size = v.capacity) :
    ∃ v', reserve v n = some v' ∧ v'.size = v.size ∧ v'.capacity = n ∧
      (∀ i, i < v.size → v'.slot i = v.slot i) ∧ Wf v' := by
  have hlive : ∀ k, k < v.size → ((v.data).getD (0 + k) none).isSome := by
    intro k hk
    rw [Nat.zero_add]
    exact (hv.isSome_iff k).mpr hk
  obtain ⟨out, hout⟩ := copyN_total v.data v.size 0 (List.replicate n none) 0 hlive
  obtain ⟨holen, hofr, hocp⟩ := copyNF_id_spec v.data hout
    (by rw [List.length_replicate]; omega)
  have hdlive : ∀ k, k < v.capacity → ((v.data).getD (0 + k) none).isSome := by
    intro k hk
    rw [Nat.zero_add]
    exact (hv.isSome_iff k).mpr (by omega)
  obtain ⟨dd, hdd, _, _, _⟩ := destroyN_spec v.capacity v.data 0 hdlive
  refine ⟨⟨out, v.size⟩, ?_, rfl, ?_, ?_, ?_⟩
  · unfold reserve
    rw [if_neg (by omega)]
    simp only [hout, hdd]
  · show out.length = n
    rw [holen, List.length_replicate]
  · intro i hi
    show out.getD i none = v.data.getD i none
    have h := hocp i hi
    rw [Nat.zero_add] at h
    exact h
  · refine wf_of_slots ?_ ?_ ?_
    · show v.size ≤ out.length
      rw [holen, List.length_replicate]
      omega
    · intro i hi
      have hi' : i < v.size := hi
      show (out.getD i none).isSome
      have h := hocp i hi'
      rw [Nat.zero_add] at h
      rw [h]
      exact (hv.isSome_iff i).mpr hi'
    · intro i hi _
      have hi' : v.size ≤ i := hi
      show out.getD i none = none
      rw [hofr i (Or.inr (by omega)), getD_replicate_none]

theorem reserve_wf {v : Vec α} (hv : Wf v) {n : Nat} {v' : Vec α}
    (h : reserve v n = some v') :
    Wf v' ∧ v'.size = v.size ∧ v.capacity ≤ v'.capacity ∧ n ≤ v'.capacity ∧
      (∀ i, i < v.size → v'.slot i = v.slot i) := by
  by_cases hle : n ≤ v.capacity
  · rw [reserve_noop hle] at h
    cases h
    exact ⟨hv, rfl, Nat.le_refl _, hle, fun i _ => rfl⟩
  · have hsc : v.size = v.capacity := by
      unfold reserve at h
      rw [if_neg hle] at h
      cases hc : copyN v.data 0 (List.replicate n none) 0 v.size with
      | none => simp only [hc] at h; exact Option.noConfusion h
      | some nd =>
        simp only [hc] at h
        cases hd : destroyN v.data 0 v.capacity with
        | none => simp only [hd] at h; exact Option.noConfusion h
        | some dd =>
          have hall := destroyN_some_live v.capacity v.data 0 dd hd
          have : v.capacity ≤ v.size := by
            by_contra hcs
            have := hall v.size (by omega)
            rw [Nat.zero_add] at this
            rw [hv.getD_none (Nat.le_refl _)] at this
            simp at this
          have h1 := hv.1
          omega
    obtain ⟨v'', hr, hsz, hcap, hslots, hwf⟩ :=
      reserve_grow_spec hv (Nat.lt_of_not_le hle) hsc
    rw [hr] at h
    cases h
    exact ⟨hwf, hsz, by omega, by omega, hslots⟩

theorem resize_shrink_spec {v : Vec α} (hv : Wf v) (dflt : α) {n : Nat}
    (hn : n < v.capacity) (hns : n ≤ v.size) :
    ∃ v', resize v dflt n = some v' ∧ v'.size = n ∧ v'.capacity = v.capacity ∧
      (∀ i, i < n → v'.slot i = v.slot i) ∧ Wf v' := by
  have hlive : ∀ k, k < v.size - n → ((v.data).getD (n + k) none).isSome := by
    intro k hk
    exact (hv.isSome_iff _).mpr (by omega)
  obtain ⟨out, hout, holen, hofr, hodes⟩ := destroyN_spec (v.size - n) v.data n hlive
  refine ⟨⟨out, n⟩, ?_, rfl, ?_, ?_, ?_⟩
  · unfold resize
    rw [if_neg (by omega)]
    simp only [hout]
  · show out.length = _
    rw [holen]
    rfl
  · intro i hi
    show out.getD i none = v.data.getD i none
    exact hofr i (Or.inl hi)
  · refine wf_of_slots ?_ ?_ ?_
    · show n ≤ out.length
      rw [holen, ← capacity_eq]
      omega
    · intro i hi
      have hi' : i < n := hi
      show (out.getD i none).isSome
      rw [hofr i (Or.inl hi')]
      exact (hv.isSome_iff i).mpr (by omega)
    · intro i hi hic
      have hi' : n ≤ i := hi
      show out.getD i none = none
      by_cases hm : i < n + (v.size - n)
      · have h := hodes (i - n) (by omega)
        rwa [show n + (i - n) = i by omega] at h
      · rw [hofr i (Or.inr (by omega))]
        exact hv.getD_none (by omega)

theorem resize_below_cap_capacity {v : Vec α} (dflt : α) {n : Nat} {v' : Vec α}
    (hn : n < v.capacity) (h : resize v dflt n = some v') :
    v'.capacity = v.capacity := by
  unfold resize at h
  rw [if_neg (by omega)] at h
  cases hd : destroyN v.data n (v.size - n) with
  | none => simp only [hd] at h; exact Option.noConfusion h
  | some nd =>
    simp only [hd] at h
    cases h
    show nd.length = _
    rw [destroyN_length _ _ _ _ hd]
    rfl

theorem resize_wf {v : Vec α} (hv : Wf v) (dflt : α) {n : Nat} {v' : Vec α}
    (hmid : ¬(v.size < n ∧ n < v.capacity)) (h : resize v dflt n = some v') :
    Wf v' ∧ v'.size = n := by
  by_cases hc : v.capacity ≤ n
  · unfold resize at h
    rw [if_pos hc] at h
    cases hr : reserve v n with
    | none => simp only [hr] at h; exact Option.noConfusion h
    | some v1 =>
      simp only [hr] at h
      cases h
      obtain ⟨hwf1, hsz1, hcapv, hcapn, hslots1⟩ := reserve_wf hv hr
      have hv1len : n ≤ v1.data.length := by rw [← capacity_eq]; exact hcapn
      have hvsn : v.size ≤ n := by
        have h1 := hv.1
        omega
      obtain ⟨hclen, hcfr, hcw⟩ := constructN_spec dflt (n - v.size) v1.data v.size
      refine ⟨?_, rfl⟩
      refine wf_of_slots ?_ ?_ ?_
      · show n ≤ (constructN dflt v1.data v.size (n - v.size)).length
        rw [hclen]
        exact hv1len
      · intro i hi
        have hi' : i < n := hi
        show ((constructN dflt v1.data v.size (n - v.size)).getD i none).isSome
        by_cases his : i < v.size
        · rw [hcfr i (Or.inl his)]
          rw [← hsz1] at his
          exact (hwf1.isSome_iff i).mpr his
        · have h := hcw (i - v.size) (by omega) (by omega)
          rw [show v.size + (i - v.size) = i by omega] at h
          rw [h]
          rfl
      · intro i hi hic
        have hi' : n ≤ i := hi
        show (constructN dflt v1.data v.size (n - v.size)).getD i none = none
        rw [hcfr i (Or.inr (by omega))]
        exact hwf1.getD_none (by omega)
  · have hn : n < v.capacity := Nat.lt_of_not_le hc
    have hns : n ≤ v.size := by omega
    obtain ⟨v'', hr, hsz, hcap, hslots, hwf⟩ := resize_shrink_spec hv dflt hn hns
    rw [hr] at h
    cases h
    exact ⟨hwf, hsz⟩

theorem resize_size_le_cap {v : Vec α} (hv : Wf v) (dflt : α) {n : Nat} {v' : Vec α}
    (h : resize v dflt n = some v') : v'.size ≤ v'.capacity ∧ v'.size = n := by
  unfold resize at h
  by_cases hc : v.capacity ≤ n
  · rw [if_pos hc] at h
    cases hr : reserve v n with
    | none => simp only [hr] at h; exact Option.noConfusion h
    | some v1 =>
      simp only [hr] at h
      cases h
      obtain ⟨hwf1, hsz1, hcapv, hcapn, hslots1⟩ := reserve_wf hv hr
      refine ⟨?_, rfl⟩
      show n ≤ (constructN dflt v1.data v.size (n - v.size)).length
      rw [(constructN_spec dflt (n - v.size) v1.data v.size).1, ← capacity_eq]
      exact hcapn
  · rw [if_neg hc] at h
    cases hd : destroyN v.data n (v.size - n) with
    | none => simp only [hd] at h; exact Option.noConfusion h
    | some nd =>
      simp only [hd] at h
      cases h
      refine ⟨?_, rfl⟩
      show n ≤ nd.length
      rw [destroyN_length _ _ _ _ hd, ← capacity_eq]
      omega

theorem erase_spec {v : Vec α} (hv : Wf v) {pos : Nat} (hpos : pos < v.size) :
    ∃ v', erase v pos = some (v', pos) ∧
      v'.size = v.size - 1 ∧ v'.capacity = v.capacity ∧
      (∀ i, i < pos → v'.slot i = v.slot i) ∧
      (∀ i, pos ≤ i → i < v.size - 1 → v'.slot i = v.slot (i + 1)) ∧
      v'.slot (v.size - 1) = none ∧ Wf v' := by
  have hlive : ∀ k, k < v.size - 1 - pos →
      ((v.data).getD (pos + 1 + k) none).isSome := by
    intro k hk
    exact (hv.isSome_iff _).mpr (by omega)
  obtain ⟨out, hout, holen, hofr, hosh⟩ :=
    shiftLeft_spec (v.size - 1 - pos) v.data pos hlive
  have hlast : (out.getD (v.size - 1) none).isSome := by
    rw [hofr (v.size - 1) (Or.inr (by omega))]
    exact (hv.isSome_iff _).mpr (by omega)
  have hlastl : v.size - 1 < out.length := lt_length_of_getD_isSome hlast
  cases hl : out.getD (v.size - 1) none with
  | none => rw [hl] at hlast; simp at hlast
  | some a =>
    refine ⟨⟨out.set (v.size - 1) none, v.size - 1⟩, ?_, rfl, ?_, ?_, ?_, ?_, ?_⟩
    · unfold erase
      rw [if_neg (by omega)]
      simp only [hout, hl]
    · show (out.set (v.size - 1) none).length = _
      rw [List.length_set, holen]
      rfl
    · intro i hi
      show (out.set (v.size - 1) none).getD i none = v.data.getD i none
      rw [getD_set_ne _ _ _ (by omega), hofr i (Or.inl hi)]
    · intro i hge hlt
      show (out.set (v.size - 1) none).getD i none = v.data.getD (i + 1) none
      rw [getD_set_ne _ _ _ (by omega)]
      have h := hosh (i - pos) (by omega)
      rw [show pos + (i - pos) = i by omega,
        show pos + 1 + (i - pos) = i + 1 by omega] at h
      exact h
    · show (out.set (v.size - 1) none).getD (v.size - 1) none = none
      exact getD_set_self _ _ _ _ hlastl
    · refine wf_of_slots ?_ ?_ ?_
      · show v.size - 1 ≤ (out.set (v.size - 1) none).length
        rw [List.length_set, holen, ← capacity_eq]
        have h1 := hv.1
        omega
      · intro i hi
        have hi' : i < v.size - 1 := hi
        show ((out.set (v.size - 1) none).getD i none).isSome
        rw [getD_set_ne _ _ _ (by omega)]
        by_cases hip : i < pos
        · rw [hofr i (Or.inl hip)]
          exact (hv.isSome_iff i).mpr (by omega)
        · have h := hosh (i - pos) (by omega)
          rw [show pos + (i - pos) = i by omega] at h
          rw [h]
          exact (hv.isSome_iff _).mpr (by omega)
      · intro i hi _
        have hi' : v.size - 1 ≤ i := hi
        show (out.set (v.size - 1) none).getD i none = none
        by_cases he : i = v.size - 1
        · rw [he]
          exact getD_set_self _ _ _ _ hlastl
        · rw [getD_set_ne _ _ _ (by omega), hofr i (Or.inr (by omega))]
          exact hv.getD_none (by omega)

theorem emplace_spec {v : Vec α} (hv : Wf v) {pos : Nat} (hpos : pos ≤ v.size)
    (x : α) :
    ∃ v', emplace v pos x = some (v', pos) ∧
      v'.size = v.size + 1 ∧
      (∀ i, i < pos → v'.slot i = v.slot i) ∧
      v'.slot pos = some x ∧
      (∀ i, pos < i → i ≤ v.size → v'.slot i = v.slot (i - 1)) ∧
      Wf v' := by
  by_cases hg : v.size = v.capacity
  · have hsz1 : v.size + 1 ≤ (if v.capacity = 0 then 1 else 2 * v.capacity) := by
      by_cases h0 : v.capacity = 0
      · rw [if_pos h0]; omega
      · rw [if_neg h0]; omega
    have hd0len : ((List.replicate (if v.capacity = 0 then 1 else 2 * v.capacity)
        (none : Option α)).set pos (some x)).length =
        (if v.capacity = 0 then 1 else 2 * v.capacity) := by
      rw [List.length_set, List.length_replicate]
    have hlive1 : ∀ k, k < pos → ((v.data).getD (0 + k) none).isSome := by
      intro k hk
      rw [Nat.zero_add]
      exact (hv.isSome_iff k).mpr (by omega)
    obtain ⟨out1, hout1⟩ := copyN_total v.data pos 0
      ((List.replicate (if v.capacity = 0 then 1 else 2 * v.capacity)
        (none : Option α)).set pos (some x)) 0 hlive1
    obtain ⟨holen1, hofr1, hocp1⟩ := copyNF_id_spec v.data hout1
      (by rw [hd0len]; omega)
    have hlive2 : ∀ k, k < v.size - pos → ((v.data).getD (pos + k) none).isSome := by
      intro k hk
      exact (hv.isSome_iff _).mpr (by omega)
    obtain ⟨out2, hout2⟩ := copyN_total v.data (v.size - pos) pos out1 (pos + 1) hlive2
    obtain ⟨holen2, hofr2, hocp2⟩ := copyNF_id_spec v.data hout2
      (by rw [holen1, hd0len]; omega)
    have hdlive : ∀ k, k < v.capacity → ((v.data).getD (0 + k) none).isSome := by
      intro k hk
      rw [Nat.zero_add]
      exact (hv.isSome_iff k).mpr (by omega)
    obtain ⟨dd, hdd, _, _, _⟩ := destroyN_spec v.capacity v.data 0 hdlive
    refine ⟨⟨out2, v.size + 1⟩, ?_, rfl, ?_, ?_, ?_, ?_⟩
    · unfold emplace
      rw [if_pos hg]
      simp only [hout1, hout2, hdd]
    · intro i hi
      show out2.getD i none = v.data.getD i none
      rw [hofr2 i (Or.inl (by omega))]
      have h := hocp1 i hi
      rw [Nat.zero_add] at h
      exact h
    · show out2.getD pos none = some x
      rw [hofr2 pos (Or.inl (by omega)), hofr1 pos (Or.inr (by omega)),
        getD_set_self _ _ _ _ (by rw [List.length_replicate]; omega)]
    · intro i hgt hle
      show out2.getD i none = v.data.getD (i - 1) none
      have h := hocp2 (i - (pos + 1)) (by omega)
      rw [show pos + 1 + (i - (pos + 1)) = i by omega,
        show pos + (i - (pos + 1)) = i - 1 by omega] at h
      exact h
    · refine wf_of_slots ?_ ?_ ?_
      · show v.size + 1 ≤ out2.length
        rw [holen2, holen1, hd0len]
        omega
      · intro i hi
        have hi' : i < v.size + 1 := hi
        show (out2.getD i none).isSome
        by_cases hip : i < pos
        · rw [hofr2 i (Or.inl (by omega))]
          have h := hocp1 i hip
          rw [Nat.zero_add] at h
          rw [h]
          exact (hv.isSome_iff i).mpr (by omega)
        · by_cases hie : i = pos
          · rw [hie, hofr2 pos (Or.inl (by omega)), hofr1 pos (Or.inr (by omega)),
              getD_set_self _ _ _ _ (by rw [List.length_replicate]; omega)]
            rfl
          · have h := hocp2 (i - (pos + 1)) (by omega)
            rw [show pos + 1 + (i - (pos + 1)) = i by omega] at h
            rw [h]
            exact (hv.isSome_iff _).mpr (by omega)
      · intro i hi _
        have hi' : v.size + 1 ≤ i := hi
        show out2.getD i none = none
        rw [hofr2 i (Or.inr (by omega)), hofr1 i (Or.inr (by omega)),
          getD_set_ne _ _ _ (by omega), getD_replicate_none]
  · have hv1 := hv.1
    have hbr := capacity_eq v
    have hltl : v.size < v.data.length := by omega
    by_cases hpe : pos = v.size
    · refine ⟨⟨v.data.set v.size (some x), v.size + 1⟩, ?_, rfl, ?_, ?_, ?_, ?_⟩
      · unfold emplace
        rw [if_neg hg, if_pos hpe]
      · intro i hi
        show (v.data.set v.size (some x)).getD i none = v.data.getD i none
        exact getD_set_ne _ _ _ (by omega)
      · show (v.data.set v.size (some x)).getD pos none = some x
        rw [hpe]
        exact getD_set_self _ _ _ _ hltl
      · intro i hgt hle
        omega
      · refine wf_of_slots ?_ ?_ ?_
        · show v.size + 1 ≤ (v.data.set v.size (some x)).length
          rw [List.length_set]
          omega
        · intro i hi
          have hi' : i < v.size + 1 := hi
          show ((v.data.set v.size (some x)).getD i none).isSome
          rcases Nat.lt_succ_iff_lt_or_eq.mp hi' with h1 | h1
          · rw [getD_set_ne _ _ _ (by omega)]
            exact (hv.isSome_iff i).mpr h1
          · rw [h1, getD_set_self _ _ _ _ hltl]
            rfl
        · intro i hi _
          have hi' : v.size + 1 ≤ i := hi
          show (v.data.set v.size (some x)).getD i none = none
          rw [getD_set_ne _ _ _ (by omega)]
          exact hv.getD_none (by omega)
    · have hplt : pos < v.size := Nat.lt_of_le_of_ne hpos hpe
      have hlast : (v.data.getD (v.size - 1) none).isSome :=
        (hv.isSome_iff _).mpr (by omega)
      cases hl : v.data.getD (v.size - 1) none with
      | none => rw [hl] at hlast; simp at hlast
      | some lastv =>
        have hlive : ∀ k, k < v.size - 1 - pos →
            (((v.data.set v.size (some lastv))).getD (pos + k) none).isSome := by
          intro k hk
          rw [getD_set_ne _ _ _ (by omega)]
          exact (hv.isSome_iff _).mpr (by omega)
        obtain ⟨out, hout, holen, hofr, hosh⟩ :=
          shiftRight_spec (v.size - 1 - pos) (v.data.set v.size (some lastv)) pos
            hlive (by rw [List.length_set]; omega)
        have houtlen : out.length = v.data.length := by
          rw [holen, List.length_set]
        refine ⟨⟨out.set pos (some x), v.size + 1⟩, ?_, rfl, ?_, ?_, ?_, ?_⟩
        · unfold emplace
          rw [if_neg hg, if_neg hpe]
          simp only [hl, hout]
        · intro i hi
          show (out.set pos (some x)).getD i none = v.data.getD i none
          rw [getD_set_ne _ _ _ (by omega), hofr i (Or.inl (by omega)),
            getD_set_ne _ _ _ (by omega)]
        · show (out.set pos (some x)).getD pos none = some x
          exact getD_set_self _ _ _ _ (by rw [houtlen]; omega)
        · intro i hgt hle
          show (out.set pos (some x)).getD i none = v.data.getD (i - 1) none
          rw [getD_set_ne _ _ _ (by omega)]
          by_cases hie : i = v.size
          · rw [hie, hofr v.size (Or.inr (by omega)),
              getD_set_self _ _ _ _ hltl]
            exact hl.symm
          · have h := hosh (i - pos - 1) (by omega)
            rw [show pos + (i - pos - 1) + 1 = i by omega,
              show pos + (i - pos - 1) = i - 1 by omega,
              getD_set_ne _ _ _ (by omega)] at h
            exact h
        · refine wf_of_slots ?_ ?_ ?_
          · show v.size + 1 ≤ (out.set pos (some x)).length
            rw [List.length_set, houtlen]
            omega
          · intro i hi
            have hi' : i < v.size + 1 := hi
            show ((out.set pos (some x)).getD i none).isSome
            by_cases hip : i = pos
            · rw [hip, getD_set_self _ _ _ _ (by rw [houtlen]; omega)]
              rfl
            · rw [getD_set_ne _ _ _ (Ne.symm hip)]
              by_cases hil : i < pos
              · rw [hofr i (Or.inl (by omega)), getD_set_ne _ _ _ (by omega)]
                exact (hv.isSome_iff i).mpr (by omega)
              · by_cases hie : i = v.size
                · rw [hie, hofr v.size (Or.inr (by omega)),
                    getD_set_self _ _ _ _ hltl]
                  rfl
                · have h := hosh (i - pos - 1) (by omega)
                  rw [show pos + (i - pos - 1) + 1 = i by omega,
                    show pos + (i - pos - 1) = i - 1 by omega,
                    getD_set_ne _ _ _ (by omega)] at h
                  rw [h]
                  exact (hv.isSome_iff _).mpr (by omega)
          · intro i hi _
            have hi' : v.size + 1 ≤ i := hi
            show (out.set pos (some x)).getD i none = none
            rw [getD_set_ne _ _ _ (by omega), hofr i (Or.inr (by omega)),
              getD_set_ne _ _ _ (by omega)]
            exact hv.getD_none (by omega)

theorem capSeq_ge : ∀ k, k ≤ capSeq k := by
  intro k
  induction k with
  | zero => exact Nat.le_refl 0
  | succ k ih =>
    simp only [capSeq]
    by_cases he : capSeq k = k
    · by_cases h0 : capSeq k = 0
      · rw [if_pos he, if_pos h0]; omega
      · rw [if_pos he, if_neg h0]; omega
    · rw [if_neg he]; omega

theorem capSeq_pow : ∀ k, 0 < k → ∃ j, capSeq k = 2 ^ j := by
  intro k
  induction k with
  | zero => intro h; exact absurd h (Nat.lt_irrefl 0)
  | succ k ih =>
    intro _
    simp only [capSeq]
    by_cases he : capSeq k = k
    · by_cases h0 : capSeq k = 0
      · rw [if_pos he, if_pos h0]
        exact ⟨0, rfl⟩
      · rw [if_pos he, if_neg h0]
        have hk : 0 < k := by
          rcases Nat.eq_zero_or_pos k with h | h
          · subst h; exact absurd he h0
          · exact h
        obtain ⟨j, hj⟩ := ih hk
        exact ⟨j + 1, by rw [hj, Nat.pow_succ, Nat.mul_comm]⟩
    · rw [if_neg he]
      have hk : 0 < k := by
        rcases Nat.eq_zero_or_pos k with h | h
        · subst h; exact absurd rfl he
        · exact h
      exact ih hk

theorem pushList_grows :
    ∀ (xs : List α) (v : Vec α), Wf v → v.capacity = capSeq v.size →
      ∃ w, pushList v xs = some w ∧ Wf w ∧ w.size = v.size + xs.length ∧
        w.capacity = capSeq w.size := by
  intro xs
  induction xs with
  | nil =>
    intro v hv hcap
    exact ⟨v, rfl, hv, by simp, hcap⟩
  | cons x xs ih =>
    intro v hv hcap
    obtain ⟨v', heq, hsz, hcap', _, _, hwf⟩ := emplaceBack_spec hv x
    have hcs : v'.capacity = capSeq v'.size := by
      rw [hsz, hcap']
      simp only [capSeq]
      by_cases he : v.size = v.capacity
      · have he2 : capSeq v.size = v.size := by omega
        have h0 : (v.capacity = 0) = (capSeq v.size = 0) := by rw [hcap]
        rw [if_pos he, if_pos he2, hcap]
      · have he2 : ¬(capSeq v.size = v.size) := by omega
        rw [if_neg he, if_neg he2, hcap]
    obtain ⟨w, hw, hwfw, hwsz, hwcap⟩ := ih v' hwf hcs
    refine ⟨w, ?_, hwfw, ?_, hwcap⟩
    · simp only [pushList, heq]
      exact hw
    · rw [hwsz, hsz]
      simp only [List.length_cons]
      omega

theorem mkSized_wf (dflt : α) (n : Nat) :
    Wf (mkSized dflt n) ∧ (mkSized dflt n).size = n ∧
      (mkSized dflt n).capacity = n ∧
      (∀ i, i < n → (mkSized dflt n).slot i = some dflt) := by
  refine ⟨?_, rfl, ?_, ?_⟩
  · refine wf_of_slots ?_ ?_ ?_
    · show n ≤ (List.replicate n (some dflt)).length
      rw [List.length_replicate]
    · intro i hi
      have hi' : i < n := hi
      show ((List.replicate n (some dflt)).getD i none).isSome
      rw [getD_replicate _ _ hi']
      rfl
    · intro i hi hic
      have hi1 : n ≤ i := hi
      have hi2 : i < (List.replicate n (some dflt)).length := hic
      rw [List.length_replicate] at hi2
      exact absurd hi2 (Nat.not_lt.mpr hi1)
  · show (List.replicate n (some dflt)).length = n
    exact List.length_replicate _ _
  · intro i hi
    show (List.replicate n (some dflt)).getD i none = some dflt
    exact getD_replicate _ _ hi

theorem emptyVec_wf : Wf (emptyVec α) :=
  ⟨Nat.le_refl 0, fun i hi => absurd hi (Nat.not_lt_zero i)⟩

/-! Copy construction and copy assignment. -/

theorem copyCtorF_some_spec (cp : α → Option α) {other c : Vec α}
    (h : copyCtorF cp other = some c) :
    c.size = other.size ∧ c.capacity = other.size ∧ Wf c ∧
    (∀ i, i < other.size → ∃ x y, other.slot i = some x ∧ cp x = some y ∧
      c.slot i = some y) := by
  unfold copyCtorF at h
  cases hc : copyNF cp other.data 0 (List.replicate other.size none) 0 other.size with
  | none => simp only [hc] at h; exact Option.noConfusion h
  | some d =>
    simp only [hc] at h
    cases h
    obtain ⟨hlen, hfr, hw⟩ := copyNF_some_spec cp other.data other.size 0 _ 0 d hc
      (by rw [List.length_replicate]; omega)
    rw [List.length_replicate] at hlen
    refine ⟨rfl, hlen, ?_, ?_⟩
    · refine wf_of_slots ?_ ?_ ?_
      · show other.size ≤ d.length
        omega
      · intro i hi
        have hi' : i < other.size := hi
        show (d.getD i none).isSome
        obtain ⟨x, y, _, _, hdy⟩ := hw i hi'
        rw [Nat.zero_add] at hdy
        rw [hdy]
        rfl
      · intro i hi hic
        have hi1 : other.size ≤ i := hi
        have hi2 : i < d.length := hic
        rw [hlen] at hi2
        exact absurd hi2 (Nat.not_lt.mpr hi1)
    · intro i hi
      obtain ⟨x, y, hx, hy, hdy⟩ := hw i hi
      rw [Nat.zero_add] at hx hdy
      exact ⟨x, y, hx, hy, hdy⟩

theorem copyAssign_self (cp : α → Option α) (v rhs : Vec α) :
    copyAssign cp true v rhs = (v, true) := rfl

theorem copyAssign_fresh_fail {cp : α → Option α} {v rhs : Vec α}
    (hbig : v.capacity < rhs.size) {w : Vec α}
    (h : copyAssign cp false v rhs = (w, false)) : w = v := by
  unfold copyAssign at h
  rw [if_neg (by simp), if_pos hbig] at h
  cases hcc : copyCtorF cp rhs with
  | none =>
    simp only [hcc] at h
    cases h
    rfl
  | some c =>
    simp only [hcc] at h
    simp at h

theorem copyAssign_reuse_capacity (cp : α → Option α) {v rhs : Vec α}
    (hsmall : rhs.size ≤ v.capacity) :
    (copyAssign cp false v rhs).1.capacity = v.capacity := by
  unfold copyAssign
  rw [if_neg (by simp), if_neg (by omega)]
  obtain ⟨hlen, _, _⟩ :=
    assignOverlap_frame cp rhs.data (min v.size rhs.size) v.data 0
  cases hao : assignOverlap cp rhs.data v.data 0 (min v.size rhs.size) with
  | mk d b =>
    rw [hao] at hlen
    cases b
    · simp only []
      show d.length = _
      rw [hlen]
      rfl
    · simp only []
      by_cases hlt : v.size < rhs.size
      · rw [if_pos hlt]
        cases hcf : copyNF cp rhs.data (min v.size rhs.size) d (min v.size rhs.size)
            (rhs.size - min v.size rhs.size) with
        | none =>
          show d.length = _
          rw [hlen]
          rfl
        | some d2 =>
          show d2.length = _
          rw [copyNF_length cp rhs.data _ _ d _ d2 hcf, hlen]
          rfl
      · rw [if_neg hlt]
        cases hde : destroyN d rhs.size (v.size - rhs.size) with
        | none =>
          show d.length = _
          rw [hlen]
          rfl
        | some d2 =>
          show d2.length = _
          rw [destroyN_length _ _ _ _ hde, hlen]
          rfl

theorem assignOverlap_wf {cp : α → Option α} {v : Vec α} (hv : Wf v)
    (rhsData : List (Option α)) {m : Nat} (hm : m ≤ v.size) :
    Wf ⟨(assignOverlap cp rhsData v.data 0 m).1, v.size⟩ := by
  obtain ⟨hlen, hfr, hpart⟩ := assignOverlap_frame cp rhsData m v.data 0
  refine wf_of_slots ?_ ?_ ?_
  · show v.size ≤ (assignOverlap cp rhsData v.data 0 m).1.length
    rw [hlen, ← capacity_eq]
    exact hv.1
  · intro i hi
    have hi' : i < v.size := hi
    show ((assignOverlap cp rhsData v.data 0 m).1.getD i none).isSome
    by_cases him : i < m
    · rcases hpart i (by omega) with h | h
      · rw [Nat.zero_add] at h
        rw [h]
        exact (hv.isSome_iff i).mpr hi'
      · rw [Nat.zero_add] at h
        exact h
    · rw [hfr i (Or.inr (by omega))]
      exact (hv.isSome_iff i).mpr hi'
  · intro i hi _
    have hi' : v.size ≤ i := hi
    show (assignOverlap cp rhsData v.data 0 m).1.getD i none = none
    rw [hfr i (Or.inr (by omega))]
    exact hv.getD_none hi'

theorem copyAssign_spec (cp : α → Option α)
    (hcp : ∀ x, cp x = none ∨ cp x = some x) {v rhs : Vec α}
    (hv : Wf v) (hr : Wf rhs) :
    Wf (copyAssign cp false v rhs).1 ∧
    ((copyAssign cp false v rhs).2 = true →
      (copyAssign cp false v rhs).1.size = rhs.size ∧
      ∀ i, i < rhs.size → (copyAssign cp false v rhs).1.slot i = rhs.slot i) := by
  unfold copyAssign
  rw [if_neg (by simp)]
  by_cases hbig : v.capacity < rhs.size
  · rw [if_pos hbig]
    cases hcc : copyCtorF cp rhs with
    | none => exact ⟨hv, fun hf => absurd hf (by simp)⟩
    | some c =>
      obtain ⟨hsz, hcap, hwf, hvals⟩ := copyCtorF_some_spec cp hcc
      refine ⟨hwf, fun _ => ⟨hsz, ?_⟩⟩
      intro i hi
      obtain ⟨x, y, hx, hy, hcy⟩ := hvals i hi
      rcases hcp x with h' | h'
      · rw [h'] at hy
        exact Option.noConfusion hy
      · rw [h'] at hy
        injection hy with hxy
        show c.slot i = rhs.slot i
        rw [hcy, hx, hxy]
  · rw [if_neg hbig]
    have hsmall : rhs.size ≤ v.capacity := Nat.le_of_not_lt hbig
    have hmle : min v.size rhs.size ≤ v.size := Nat.min_le_left _ _
    have hwfd := @assignOverlap_wf α cp v hv rhs.data (min v.size rhs.size) hmle
    cases hao : assignOverlap cp rhs.data v.data 0 (min v.size rhs.size) with
    | mk d b =>
      rw [hao] at hwfd
      cases b
      · exact ⟨hwfd, fun hf => absurd hf (by simp)⟩
      · simp only []
        obtain ⟨hdlen, hdfr, hdval⟩ :=
          assignOverlap_true_spec cp hcp rhs.data (min v.size rhs.size)
            v.data 0 d hao
            (by rw [← capacity_eq]; omega)
        have hdlen2 : d.length = v.capacity := by rw [hdlen, ← capacity_eq]
        by_cases hlt : v.size < rhs.size
        · have hm : min v.size rhs.size = v.size := Nat.min_eq_left (Nat.le_of_lt hlt)
          rw [if_pos hlt]
          cases hcf : copyNF cp rhs.data (min v.size rhs.size) d
              (min v.size rhs.size) (rhs.size - min v.size rhs.size) with
          | none => exact ⟨hwfd, fun hf => absurd hf (by simp)⟩
          | some d2 =>
            obtain ⟨h2len, h2fr, h2w⟩ :=
              copyNF_some_spec cp rhs.data (rhs.size - min v.size rhs.size)
                (min v.size rhs.size) d (min v.size rhs.size) d2 hcf (by omega)
            have hslots : ∀ i, i < rhs.size → d2.getD i none = rhs.data.getD i none := by
              intro i hi
              by_cases him : i < min v.size rhs.size
              · rw [h2fr i (Or.inl him)]
                have h := hdval i (by omega)
                rw [Nat.zero_add] at h
                exact h
              · obtain ⟨x, y, hx, hy, h2y⟩ := h2w (i - min v.size rhs.size) (by omega)
                rw [show min v.size rhs.size + (i - min v.size rhs.size) = i
                  by omega] at hx h2y
                rcases hcp x with h' | h'
                · rw [h'] at hy
                  exact Option.noConfusion hy
                · rw [h'] at hy
                  injection hy with hxy
                  rw [h2y, hx, hxy]
            refine ⟨?_, fun _ => ⟨rfl, ?_⟩⟩
            · refine wf_of_slots ?_ ?_ ?_
              · show rhs.size ≤ d2.length
                rw [h2len, hdlen2]
                omega
              · intro i hi
                have hi' : i < rhs.size := hi
                show (d2.getD i none).isSome
                rw [hslots i hi']
                exact (hr.isSome_iff i).mpr hi'
              · intro i hi _
                have hi' : rhs.size ≤ i := hi
                show d2.getD i none = none
                rw [h2fr i (Or.inr (by omega)), hdfr i (Or.inr (by omega))]
                exact hv.getD_none (by omega)
            · intro i hi
              show d2.getD i none = rhs.data.getD i none
              exact hslots i hi
        · have hm : min v.size rhs.size = rhs.size :=
            Nat.min_eq_right (Nat.le_of_not_lt hlt)
          rw [if_neg hlt]
          have hdestlive : ∀ k, k < v.size - rhs.size →
              ((d.getD (rhs.size + k) none)).isSome := by
            intro k hk
            rw [hdfr (rhs.size + k) (Or.inr (by omega))]
            exact (hv.isSome_iff _).mpr (by omega)
          obtain ⟨out, hout, holen, hofr, hodes⟩ :=
            destroyN_spec (v.size - rhs.size) d rhs.size hdestlive
          rw [hout]
          refine ⟨?_, fun _ => ⟨rfl, ?_⟩⟩
          · refine wf_of_slots ?_ ?_ ?_
            · show rhs.size ≤ out.length
              rw [holen, hdlen2]
              omega
            · intro i hi
              have hi' : i < rhs.size := hi
              show (out.getD i none).isSome
              rw [hofr i (Or.inl (by omega))]
              have h := hdval i (by omega)
              rw [Nat.zero_add] at h
              rw [h]
              exact (hr.isSome_iff i).mpr hi'
            · intro i hi _
              have hi' : rhs.size ≤ i := hi
              show out.getD i none = none
              by_cases him : i < rhs.size + (v.size - rhs.size)
              · have h := hodes (i - rhs.size) (by omega)
                rwa [show rhs.size + (i - rhs.size) = i by omega] at h
              · rw [hofr i (Or.inr (by omega)), hdfr i (Or.inr (by omega))]
                exact hv.getD_none (by omega)
          · intro i hi
            show out.getD i none = rhs.data.getD i none
            rw [hofr i (Or.inl (by omega))]
            have h := hdval i (by omega)
            rw [Nat.zero_add] at h
            exact h

/-! Claim theorems. -/

/-- C1: the claim says Reserve destructs exactly the old live elements
and nothing else.  The code instead destroys old-capacity many slots of
the old block (`std::destroy_n(new_data.GetAddress(), new_data.Capacity())`
after the swap), so on the reachable state [10, 20] with capacity 4 the
call Reserve(8) destroys two never-constructed raw slots — undefined
behaviour, modelled as `none`. -/
theorem C1_reserve_destroys_raw_slots :
    pushList (emptyVec Int) [10, 20, 30] =
      some ⟨[some 10, some 20, some 30, none], 3⟩ ∧
    popBack ⟨[some 10, some 20, some 30, none], 3⟩ = some vTwoCapFour ∧
    Wf vTwoCapFour ∧ vTwoCapFour.size = 2 ∧ vTwoCapFour.capacity = 4 ∧
    reserve vTwoCapFour 8 = none := by decide

/-- C2: the claim says Resize(5) on live contents [1,2,3] yields
[1,2,3,0,0] with the new slots default-constructed even when 5 is below
the current capacity.  On the reachable state [1,2,3] with capacity 8
the code takes the destruct branch (`new_size < Capacity()`), destructs
nothing, and just sets the size to 5, leaving slots 3 and 4 raw instead
of holding 0. -/
theorem C2_resize_below_capacity_leaves_raw_slots :
    Option.bind (Option.bind (Option.bind
        (pushList (emptyVec Int) [1, 2, 3, 4, 5, 6]) popBack) popBack) popBack =
      some vThreeCapEight ∧
    Wf vThreeCapEight ∧ vThreeCapEight.capacity = 8 ∧
    resize vThreeCapEight 0 5 = some vThreeCapEightResized ∧
    vThreeCapEightResized.size = 5 ∧
    vThreeCapEightResized.slot 3 = none ∧
    vThreeCapEightResized.slot 4 = none := by decide

/-- C3: copy assignment (non-self) makes the destination elementwise
equal to rhs with size rhs.size whenever it completes successfully;
when rhs.size exceeds the destination capacity it builds a fresh copy
and swaps, so a copy failure leaves the destination unmodified; when
rhs.size fits within the destination capacity the existing block is
reused, so the capacity is unchanged. -/
theorem C3_copy_assignment_paths (cp : Int → Option Int)
    (hcp : ∀ x, cp x = none ∨ cp x = some x) (v rhs : Vec Int)
    (hv : Wf v) (hr : Wf rhs) :
    ((copyAssign cp false v rhs).2 = true →
      (copyAssign cp false v rhs).1.size = rhs.size ∧
      vals (copyAssign cp false v rhs).1 = vals rhs) ∧
    (v.capacity < rhs.size → ∀ w, copyAssign cp false v rhs = (w, false) → w = v) ∧
    (rhs.size ≤ v.capacity → (copyAssign cp false v rhs).1.capacity = v.capacity) := by
  obtain ⟨hwf, hsucc⟩ := copyAssign_spec cp hcp hv hr
  refine ⟨?_, ?_, ?_⟩
  · intro ht
    obtain ⟨hsz, hvals⟩ := hsucc ht
    refine ⟨hsz, vals_eq_of_slots hsz ?_⟩
    intro i hi
    exact hvals i (by omega)
  · intro hbig w hw
    exact copyAssign_fresh_fail hbig hw
  · intro hsmall
    exact copyAssign_reuse_capacity cp hsmall

theorem C3_copy_assignment_paths_witness :
    ((copyAssign (fun x => some x) false (⟨[some 1], 1⟩ : Vec Int)
        ⟨[some 7, some 8], 2⟩).2 = true →
      (copyAssign (fun x => some x) false (⟨[some 1], 1⟩ : Vec Int)
        ⟨[some 7, some 8], 2⟩).1.size = (⟨[some 7, some 8], 2⟩ : Vec Int).size ∧
      vals (copyAssign (fun x => some x) false (⟨[some 1], 1⟩ : Vec Int)
        ⟨[some 7, some 8], 2⟩).1 = vals (⟨[some 7, some 8], 2⟩ : Vec Int)) ∧
    ((⟨[some 1], 1⟩ : Vec Int).capacity < (⟨[some 7, some 8], 2⟩ : Vec Int).size →
      ∀ w, copyAssign (fun x => some x) false (⟨[some 1], 1⟩ : Vec Int)
        ⟨[some 7, some 8], 2⟩ = (w, false) → w = ⟨[some 1], 1⟩) ∧
    ((⟨[some 7, some 8], 2⟩ : Vec Int).size ≤ (⟨[some 1], 1⟩ : Vec Int).capacity →
      (copyAssign (fun x => some x) false (⟨[some 1], 1⟩ : Vec Int)
        ⟨[some 7, some 8], 2⟩).1.capacity = (⟨[some 1], 1⟩ : Vec Int).capacity) :=
  C3_copy_assignment_paths (fun x => some x) (fun x => Or.inr rfl)
    ⟨[some 1], 1⟩ ⟨[some 7, some 8], 2⟩ (by decide) (by decide)

/-- C4: for every well-formed sequence, value x and position
pos ≤ size, Insert(pos, x) immediately followed by Erase(pos) restores
the original size and element sequence exactly. -/
theorem C4_insert_erase_roundtrip {v : Vec α} (hv : Wf v) {pos : Nat}
    (hpos : pos ≤ v.size) (x : α) :
    ∃ v1 v2, emplace v pos x = some (v1, pos) ∧ erase v1 pos = some (v2, pos) ∧
      v2.size = v.size ∧ vals v2 = vals v := by
  obtain ⟨v1, he, hsz1, hlow, hpos1, hhigh, hwf1⟩ := emplace_spec hv hpos x
  obtain ⟨v2, her, hsz2, hcap2, hlow2, hshift2, hlast2, hwf2⟩ :=
    @erase_spec α v1 hwf1 pos (by omega)
  refine ⟨v1, v2, he, her, by omega, ?_⟩
  refine vals_eq_of_slots (by omega) ?_
  intro i hi
  have hiv : i < v.size := by omega
  by_cases hip : i < pos
  · rw [hlow2 i hip, hlow i hip]
  · have h1 : v2.slot i = v1.slot (i + 1) := hshift2 i (by omega) (by omega)
    have h2 : v1.slot (i + 1) = v.slot (i + 1 - 1) := hhigh (i + 1) (by omega) (by omega)
    rw [h1, h2, Nat.add_sub_cancel]

theorem C4_insert_erase_roundtrip_witness :
    ∃ v1 v2, emplace (⟨[some 1, some 2, some 3, none], 3⟩ : Vec Int) 1 9 =
        some (v1, 1) ∧
      erase v1 1 = some (v2, 1) ∧
      v2.size = (⟨[some 1, some 2, some 3, none], 3⟩ : Vec Int).size ∧
      vals v2 = vals (⟨[some 1, some 2, some 3, none], 3⟩ : Vec Int) :=
  @C4_insert_erase_roundtrip Int ⟨[some 1, some 2, some 3, none], 3⟩
    (by decide) 1 (by decide) 9

/-- C5: Erase(pos) on a well-formed non-empty sequence with pos < size
shifts the elements of [pos+1, size) one slot left, destructs the
vacated last slot, decrements the size by one, and returns offset pos,
which addresses the element formerly at pos+1 when one exists and
equals the end marker when the erased element was the last. -/
theorem C5_erase_behaviour {v : Vec α} (hv : Wf v) {pos : Nat}
    (hpos : pos < v.size) :
    ∃ v', erase v pos = some (v', pos) ∧
      v'.size = v.size - 1 ∧
      (∀ i, i < pos → v'.slot i = v.slot i) ∧
      (∀ i, pos ≤ i → i < v.size - 1 → v'.slot i = v.slot (i + 1)) ∧
      v'.slot (v.size - 1) = none ∧
      (pos < v'.size → v'.slot pos = v.slot (pos + 1)) ∧
      (pos = v'.size → pos = endIdx v') ∧
      Wf v' := by
  obtain ⟨v', her, hsz, hcap, hlow, hshift, hlast, hwf⟩ := erase_spec hv hpos
  refine ⟨v', her, hsz, hlow, hshift, hlast, ?_, ?_, hwf⟩
  · intro hlt
    exact hshift pos (Nat.le_refl pos) (by omega)
  · intro hpe
    unfold endIdx
    by_cases h0 : v'.size = 0
    · rw [if_pos h0]
      omega
    · rw [if_neg h0]
      omega

theorem C5_erase_behaviour_witness :
    ∃ v', erase (⟨[some 1, some 9, some 2, some 3], 4⟩ : Vec Int) 1 =
        some (v', 1) ∧
      v'.size = (⟨[some 1, some 9, some 2, some 3], 4⟩ : Vec Int).size - 1 ∧
      (∀ i, i < 1 → v'.slot i =
        (⟨[some 1, some 9, some 2, some 3], 4⟩ : Vec Int).slot i) ∧
      (∀ i, 1 ≤ i → i < (⟨[some 1, some 9, some 2, some 3], 4⟩ : Vec Int).size - 1 →
        v'.slot i = (⟨[some 1, some 9, some 2, some 3], 4⟩ : Vec Int).slot (i + 1)) ∧
      v'.slot ((⟨[some 1, some 9, some 2, some 3], 4⟩ : Vec Int).size - 1) = none ∧
      (1 < v'.size → v'.slot 1 =
        (⟨[some 1, some 9, some 2, some 3], 4⟩ : Vec Int).slot 2) ∧
      (1 = v'.size → 1 = endIdx v') ∧
      Wf v' :=
  @C5_erase_behaviour Int ⟨[some 1, some 9, some 2, some 3], 4⟩
    (by decide) 1 (by decide)

/-- C6: from the empty sequence, k successive PushBack calls give
size = k and capacity capSeq k, the doubling sequence that grows to
max(1, 2 * capacity) exactly when size = capacity, which always
dominates the size and is 0 or a power of two; each single PushBack on
a well-formed sequence constructs the new element at offset size,
increments the size, and returns the offset of the new element. -/
theorem C6_pushback_growth (xs : List α) (v : Vec α) (x : α) (hv : Wf v) :
    (∃ w, pushList (emptyVec α) xs = some w ∧ w.size = xs.length ∧
      w.capacity = capSeq xs.length ∧ w.size ≤ w.capacity ∧
      (xs.length = 0 ∨ ∃ j, w.capacity = 2 ^ j)) ∧
    (∃ v', emplaceBack v x = some (v', v.size) ∧ v'.size = v.size + 1 ∧
      v'.slot v.size = some x ∧ (∀ i, i < v.size → v'.slot i = v.slot i) ∧
      Wf v') := by
  constructor
  · obtain ⟨w, hw, hwf, hsz, hcap⟩ := pushList_grows xs (emptyVec α) emptyVec_wf rfl
    have hsz' : w.size = xs.length := hsz.trans (Nat.zero_add xs.length)
    have hcap' : w.capacity = capSeq xs.length := by rw [hcap, hsz']
    refine ⟨w, hw, hsz', hcap', ?_, ?_⟩
    · rw [hsz', hcap']
      exact capSeq_ge xs.length
    · rcases Nat.eq_zero_or_pos xs.length with h0 | h0
      · exact Or.inl h0
      · refine Or.inr ?_
        rw [hcap']
        exact capSeq_pow xs.length h0
  · obtain ⟨v', heq, hsz, _, hslot, hprev, hwf⟩ := emplaceBack_spec hv x
    exact ⟨v', heq, hsz, hslot, hprev, hwf⟩

theorem C6_pushback_growth_witness :
    (∃ w, pushList (emptyVec Int) [5, 6, 7] = some w ∧ w.size = [5, 6, 7].length ∧
      w.capacity = capSeq [5, 6, 7].length ∧ w.size ≤ w.capacity ∧
      ([5, 6, 7].length = 0 ∨ ∃ j, w.capacity = 2 ^ j)) ∧
    (∃ v', emplaceBack (⟨[some 1, some 2], 2⟩ : Vec Int) 4 =
        some (v', (⟨[some 1, some 2], 2⟩ : Vec Int).size) ∧
      v'.size = (⟨[some 1, some 2], 2⟩ : Vec Int).size + 1 ∧
      v'.slot (⟨[some 1, some 2], 2⟩ : Vec Int).size = some 4 ∧
      (∀ i, i < (⟨[some 1, some 2], 2⟩ : Vec Int).size →
        v'.slot i = (⟨[some 1, some 2], 2⟩ : Vec Int).slot i) ∧
      Wf v') :=
  C6_pushback_growth [5, 6, 7] ⟨[some 1, some 2], 2⟩ 4 (by decide)

/-- C7: PopBack on a well-formed non-empty sequence destructs the last
live element and decrements the size by exactly one; PopBack on an
empty sequence is a successful no-op. -/
theorem C7_popback (v : Vec α) (hv : Wf v) :
    (v.size = 0 → popBack v = some v) ∧
    (0 < v.size → ∃ v', popBack v = some v' ∧ v'.size = v.size - 1 ∧
      v'.slot (v.size - 1) = none ∧
      (∀ i, i < v.size - 1 → v'.slot i = v.slot i) ∧ Wf v') := by
  obtain ⟨h1, h2⟩ := popBack_spec hv
  refine ⟨h1, fun hp => ?_⟩
  obtain ⟨v', a, b, _, c, d, e⟩ := h2 hp
  exact ⟨v', a, b, c, d, e⟩

theorem C7_popback_witness :
    ((⟨[some 1, some 2], 2⟩ : Vec Int).size = 0 →
      popBack (⟨[some 1, some 2], 2⟩ : Vec Int) =
        some (⟨[some 1, some 2], 2⟩ : Vec Int)) ∧
    (0 < (⟨[some 1, some 2], 2⟩ : Vec Int).size →
      ∃ v', popBack (⟨[some 1, some 2], 2⟩ : Vec Int) = some v' ∧
        v'.size = (⟨[some 1, some 2], 2⟩ : Vec Int).size - 1 ∧
        v'.slot ((⟨[some 1, some 2], 2⟩ : Vec Int).size - 1) = none ∧
        (∀ i, i < (⟨[some 1, some 2], 2⟩ : Vec Int).size - 1 →
          v'.slot i = (⟨[some 1, some 2], 2⟩ : Vec Int).slot i) ∧ Wf v') :=
  C7_popback (⟨[some 1, some 2], 2⟩ : Vec Int) (by decide)

/-- C8 counterexample: Resize violates the claimed invariant that the
slots below the live count are exactly the constructed elements: from
the well-formed state [1,2,3] with capacity 8, Resize(5) completes and
produces a state with size 5 whose slots 3 and 4 are unconstructed. -/
theorem C8_resize_breaks_liveness :
    Wf vThreeCapEight ∧
    resize vThreeCapEight 0 5 = some vThreeCapEightResized ∧
    ¬ Wf vThreeCapEightResized := by decide

/-- C8 (amended): every public operation preserves 0 ≤ size ≤ capacity;
every operation except Resize also preserves that the slots below size
are exactly the constructed elements, and Resize preserves it except
when the requested size is strictly between the current size and the
current capacity. -/
theorem C8_invariant_preservation (dflt : α) (cp : α → Option α) (same : Bool)
    (v rhs : Vec α) (n pos : Nat) (x : α)
    (hcp : ∀ y, cp y = none ∨ cp y = some y)
    (hv : Wf v) (hrhs : Wf rhs) :
    Wf (emptyVec α) ∧
    Wf (mkSized dflt n) ∧
    (∀ c, copyCtorF cp rhs = some c → Wf c) ∧
    Wf (moveCtor v).1 ∧ Wf (moveCtor v).2 ∧
    Wf (copyAssign cp false v rhs).1 ∧
    Wf (copyAssign cp true v rhs).1 ∧
    Wf (moveAssign same v rhs).1 ∧ Wf (moveAssign same v rhs).2 ∧
    Wf (swapV v rhs).1 ∧ Wf (swapV v rhs).2 ∧
    (∀ v', reserve v n = some v' → Wf v') ∧
    (∀ v', resize v dflt n = some v' → v'.size ≤ v'.capacity) ∧
    (¬(v.size < n ∧ n < v.capacity) → ∀ v', resize v dflt n = some v' → Wf v') ∧
    (∀ v' r, emplaceBack v x = some (v', r) → Wf v') ∧
    (∀ v', popBack v = some v' → Wf v') ∧
    (pos ≤ v.size → ∀ v' r, emplace v pos x = some (v', r) → Wf v') ∧
    (pos < v.size → ∀ v' r, erase v pos = some (v', r) → Wf v') := by
  refine ⟨emptyVec_wf, (mkSized_wf dflt n).1, ?_, hv, emptyVec_wf,
    (copyAssign_spec cp hcp hv hrhs).1, ?_, ?_, ?_, hrhs, hv, ?_, ?_, ?_, ?_, ?_, ?_, ?_⟩
  · intro c hc
    exact (copyCtorF_some_spec cp hc).2.2.1
  · rw [copyAssign_self]
    exact hv
  · unfold moveAssign
    cases same
    · simp only [Bool.false_eq_true, if_false]
      exact hrhs
    · simp only [if_true]
      exact hv
  · unfold moveAssign
    cases same
    · simp only [Bool.false_eq_true, if_false]
      exact hv
    · simp only [if_true]
      exact hrhs
  · intro v' h
    exact (reserve_wf hv h).1
  · intro v' h
    exact (resize_size_le_cap hv dflt h).1
  · intro hmid v' h
    exact (resize_wf hv dflt hmid h).1
  · intro v' r h
    obtain ⟨w, hw, _, _, _, _, hwf⟩ := emplaceBack_spec hv x
    rw [hw] at h
    injection h with h1
    injection h1 with h2 _
    rw [← h2]
    exact hwf
  · intro v' h
    obtain ⟨h1, h2⟩ := popBack_spec hv
    by_cases h0 : v.size = 0
    · rw [h1 h0] at h
      injection h with h3
      rw [← h3]
      exact hv
    · obtain ⟨w, hw, _, _, _, _, hwf⟩ := h2 (by omega)
      rw [hw] at h
      injection h with h3
      rw [← h3]
      exact hwf
  · intro hpos v' r h
    obtain ⟨w, hw, _, _, _, _, hwf⟩ := emplace_spec hv hpos x
    rw [hw] at h
    injection h with h1
    injection h1 with h2 _
    rw [← h2]
    exact hwf
  · intro hpos v' r h
    obtain ⟨w, hw, _, _, _, _, _, hwf⟩ := erase_spec hv hpos
    rw [hw] at h
    injection h with h1
    injection h1 with h2 _
    rw [← h2]
    exact hwf

theorem C8_invariant_preservation_witness :
    Wf (emptyVec Int) ∧
    Wf (mkSized (0 : Int) 1) ∧
    (∀ c, copyCtorF (fun y => some y) (⟨[some 7], 1⟩ : Vec Int) = some c → Wf c) ∧
    Wf (moveCtor (⟨[some 1, some 2], 2⟩ : Vec Int)).1 ∧
    Wf (moveCtor (⟨[some 1, some 2], 2⟩ : Vec Int)).2 ∧
    Wf (copyAssign (fun y => some y) false (⟨[some 1, some 2], 2⟩ : Vec Int)
      ⟨[some 7], 1⟩).1 ∧
    Wf (copyAssign (fun y => some y) true (⟨[some 1, some 2], 2⟩ : Vec Int)
      ⟨[some 7], 1⟩).1 ∧
    Wf (moveAssign false (⟨[some 1, some 2], 2⟩ : Vec Int) ⟨[some 7], 1⟩).1 ∧
    Wf (moveAssign false (⟨[some 1, some 2], 2⟩ : Vec Int) ⟨[some 7], 1⟩).2 ∧
    Wf (swapV (⟨[some 1, some 2], 2⟩ : Vec Int) ⟨[some 7], 1⟩).1 ∧
    Wf (swapV (⟨[some 1, some 2], 2⟩ : Vec Int) ⟨[some 7], 1⟩).2 ∧
    (∀ v', reserve (⟨[some 1, some 2], 2⟩ : Vec Int) 1 = some v' → Wf v') ∧
    (∀ v', resize (⟨[some 1, some 2], 2⟩ : Vec Int) (0 : Int) 1 = some v' →
      v'.size ≤ v'.capacity) ∧
    (¬((⟨[some 1, some 2], 2⟩ : Vec Int).size < 1 ∧
        1 < (⟨[some 1, some 2], 2⟩ : Vec Int).capacity) →
      ∀ v', resize (⟨[some 1, some 2], 2⟩ : Vec Int) (0 : Int) 1 = some v' → Wf v') ∧
    (∀ v' r, emplaceBack (⟨[some 1, some 2], 2⟩ : Vec Int) (5 : Int) =
      some (v', r) → Wf v') ∧
    (∀ v', popBack (⟨[some 1, some 2], 2⟩ : Vec Int) = some v' → Wf v') ∧
    (0 ≤ (⟨[some 1, some 2], 2⟩ : Vec Int).size →
      ∀ v' r, emplace (⟨[some 1, some 2], 2⟩ : Vec Int) 0 (5 : Int) =
        some (v', r) → Wf v') ∧
    (0 < (⟨[some 1, some 2], 2⟩ : Vec Int).size →
      ∀ v' r, erase (⟨[some 1, some 2], 2⟩ : Vec Int) 0 = some (v', r) → Wf v') :=
  C8_invariant_preservation (0 : Int) (fun y => some y) false
    ⟨[some 1, some 2], 2⟩ ⟨[some 7], 1⟩ 1 0 (5 : Int)
    (fun y => Or.inr rfl) (by decide) (by decide)

/-- C9: copy assignment of a sequence to itself is recognized by the
pointer identity test and is a successful no-op leaving the state
unchanged. -/
theorem C9_self_assignment (cp : α → Option α) (v : Vec α) :
    copyAssign cp true v v = (v, true) :=
  copyAssign_self cp v v

/-- C10: shrinking operations never reduce the capacity: PopBack,
Erase, Resize to a size strictly below the current capacity, and copy
assignment from a source whose size fits within the current capacity
all leave the capacity exactly as it was. -/
theorem C10_shrinking_preserves_capacity (v rhs : Vec α) (cp : α → Option α)
    (dflt : α) (n pos : Nat)
    (hn : n < v.capacity) (hfit : rhs.size ≤ v.capacity) :
    (∀ v', popBack v = some v' → v'.capacity = v.capacity) ∧
    (∀ v' r, erase v pos = some (v', r) → v'.capacity = v.capacity) ∧
    (∀ v', resize v dflt n = some v' → v'.capacity = v.capacity) ∧
    (copyAssign cp false v rhs).1.capacity = v.capacity := by
  refine ⟨?_, ?_, ?_, ?_⟩
  · intro v' h
    unfold popBack at h
    by_cases h0 : v.size = 0
    · rw [if_pos h0] at h
      injection h with h1
      rw [← h1]
    · rw [if_neg h0] at h
      cases hl : v.data.getD (v.size - 1) none with
      | none => simp only [hl] at h; exact Option.noConfusion h
      | some a =>
        simp only [hl] at h
        injection h with h1
        rw [← h1]
        show (v.data.set (v.size - 1) none).length = _
        rw [List.length_set]
        rfl
  · intro v' r h
    unfold erase at h
    by_cases h0 : v.size = 0
    · rw [if_pos h0] at h
      exact Option.noConfusion h
    · rw [if_neg h0] at h
      cases hs : shiftLeft v.data pos (v.size - 1 - pos) with
      | none => simp only [hs] at h; exact Option.noConfusion h
      | some l =>
        simp only [hs] at h
        cases hl : l.getD (v.size - 1) none with
        | none => simp only [hl] at h; exact Option.noConfusion h
        | some a =>
          simp only [hl] at h
          injection h with h1
          injection h1 with h2 _
          rw [← h2]
          show (l.set (v.size - 1) none).length = _
          rw [List.length_set, shiftLeft_length _ _ _ _ hs]
          rfl
  · intro v' h
    exact resize_below_cap_capacity dflt hn h
  · exact copyAssign_reuse_capacity cp hfit

theorem C10_shrinking_preserves_capacity_witness :
    (∀ v', popBack (⟨[some 1, some 2, none, none], 2⟩ : Vec Int) = some v' →
      v'.capacity = (⟨[some 1, some 2, none, none], 2⟩ : Vec Int).capacity) ∧
    (∀ v' r, erase (⟨[some 1, some 2, none, none], 2⟩ : Vec Int) 0 =
      some (v', r) →
      v'.capacity = (⟨[some 1, some 2, none, none], 2⟩ : Vec Int).capacity) ∧
    (∀ v', resize (⟨[some 1, some 2, none, none], 2⟩ : Vec Int) (0 : Int) 1 =
      some v' →
      v'.capacity = (⟨[some 1, some 2, none, none], 2⟩ : Vec Int).capacity) ∧
    (copyAssign (fun y => some y) false (⟨[some 1, some 2, none, none], 2⟩ : Vec Int)
      ⟨[some 7], 1⟩).1.capacity =
      (⟨[some 1, some 2, none, none], 2⟩ : Vec Int).capacity :=
  C10_shrinking_preserves_capacity ⟨[some 1, some 2, none, none], 2⟩
    ⟨[some 7], 1⟩ (fun y => some y) (0 : Int) 1 0 (by decide) (by decide)

end VecM
